import Mathlib

/-!
Verification of the Hearts simulation engine (`hearts-ai`).

The Rust sources are embedded shallowly:

* `src/game-core/src/card.rs`, `models.rs`  → `Hearts.Card` and its predicates;
* `src/game-core/src/game.rs`               → `Hearts.Core` (legal moves,
  trick winner, trick loop, full game loop);
* `src/game-simulation/src/game.rs`         → `Hearts.Sim` (the older
  variant of the same engine, where the legality ladder differs);
* `src/game-core-rs/src/deck.rs`            → `Hearts.DeckRs.rotate`;
* `src/game-core-rs/src/strategy.rs`        → `Hearts.StratRs` (the five
  decision policies, with the RNG draw and the remote-predictor response
  made explicit oracle arguments);
* `src/cli/src/game_moves_filter.rs`        → `Hearts.Cli.GameMovesFilter`.

Machine integers (`u8`, `usize`) are modelled as `Nat`: no arithmetic in
the embedded code can overflow a `u8` carrier (scores are bounded by 26,
ranks by 14, counts by 52).  Rust panics (`unwrap`, out-of-bounds
indexing, `Vec::rotate_left` beyond the length) are modelled as `none` of
an `Option`-valued result.  Rust's stable sorts (`sort`, `sort_by_key`)
are modelled with `List.insertionSort`, which is also stable; a stable
sort of a list under a total transitive key comparison is unique as a
function, so the two agree extensionally.
-/

namespace Hearts

/-- `Card` from `src/game-core/src/models.rs` / `card.rs`: a suit
character (`'C'`, `'D'`, `'H'`, `'S'`) and a rank `2..=14`. -/
structure Card where
  suit : Char
  rank : Nat
deriving DecidableEq, Repr

/-- `Card::is_penalty`: any Heart, or the Queen of Spades. -/
def Card.is_penalty (c : Card) : Bool :=
  c.suit == 'H' || (c.suit == 'S' && c.rank == 12)

/-- `Card::score`: 1 for a Heart, 13 for the Queen of Spades, else 0. -/
def Card.score (c : Card) : Nat :=
  if c.suit == 'H' then 1
  else if c.suit == 'S' && c.rank == 12 then 13
  else 0

/-- `Card::is_two_of_clubs`. -/
def Card.is_two_of_clubs (c : Card) : Bool :=
  c.suit == 'C' && c.rank == 2

/-- The 52-card deck as constructed by `Deck::new` before shuffling
(`src/game-core/src/deck.rs`, `src/game-core-rs/src/deck.rs`): suits in
the order `S, H, D, C`, ranks `2..=14`. -/
def fullDeck : List Card :=
  (['S', 'H', 'D', 'C']).flatMap (fun s => (List.range' 2 13).map (fun r => ⟨s, r⟩))

/-- Rust `Iterator::min_by_key` keeps the FIRST element among equal
minima: the fold replaces the accumulator only on a strict decrease. -/
def minFold (key : α → Nat) (x : α) (xs : List α) : α :=
  xs.foldl (fun best y => if key y < key best then y else best) x

/-- `min_by_key` on a possibly-empty collection. -/
def minByKeyFirst (key : α → Nat) : List α → Option α
  | [] => none
  | x :: xs => some (minFold key x xs)

/-- Rust `Iterator::max_by_key` keeps the LAST element among equal
maxima: the fold replaces the accumulator on ties. -/
def maxFold (key : α → Nat) (x : α) (xs : List α) : α :=
  xs.foldl (fun best y => if key best ≤ key y then y else best) x

/-- `max_by_key` on a possibly-empty collection. -/
def maxByKeyLast (key : α → Nat) : List α → Option α
  | [] => none
  | x :: xs => some (maxFold key x xs)

namespace Core

/-- `HeartsGame::must_follow_suit` (`src/game-core/src/game.rs`). -/
def must_follow_suit (hand : List Card) (lead : Char) : List Card :=
  hand.filter (fun c => c.suit == lead)

/-- `HeartsGame::avoid_hearts`: the non-Hearts of the hand, falling back
to the whole hand when it is all Hearts. -/
def avoid_hearts (hand : List Card) : List Card :=
  let nonHearts := hand.filter (fun c => c.suit != 'H')
  if nonHearts.isEmpty then hand else nonHearts

/-- `HeartsGame::avoid_penalties`: the non-penalty cards, falling back to
the whole hand when it is all penalties. -/
def avoid_penalties (hand : List Card) : List Card :=
  let safe := hand.filter (fun c => !c.is_penalty)
  if safe.isEmpty then hand else safe

/-- `HeartsGame::get_two_of_clubs`. -/
def get_two_of_clubs (hand : List Card) : List Card :=
  hand.filter (fun c => c.suit == 'C' && c.rank == 2)

/-- `HeartsGame::get_valid_moves` (`src/game-core/src/game.rs`, lines
107-143).  `tricksEmpty` stands for `self.tricks.is_empty()` and
`heartsBroken` for `self.hearts_broken`; the Rust early returns become
nested conditionals. -/
def get_valid_moves (tricksEmpty heartsBroken : Bool) (hand : List Card)
    (leadSuit : Option Char) (isFirstCard : Bool) : List Card :=
  let twoClubs := get_two_of_clubs hand
  if isFirstCard && tricksEmpty && !twoClubs.isEmpty then
    twoClubs
  else
    let sameSuit := match leadSuit with
      | some l => must_follow_suit hand l
      | none => []
    if !sameSuit.isEmpty then
      sameSuit
    else if tricksEmpty then
      avoid_penalties hand
    else if !heartsBroken then
      let nonHearts := avoid_hearts hand
      if !nonHearts.isEmpty then nonHearts else hand
    else
      hand

/-- `HeartsGame::determine_trick_winner` (`src/game-core/src/game.rs`,
lines 145-153): among the played `(card, player_index)` pairs of the lead
suit, the player of the maximal rank; `none` models the `unwrap` panic
when no card matches the lead suit. -/
def determine_trick_winner (trickCards : List (Card × Nat)) (leadSuit : Char) :
    Option Nat :=
  (maxByKeyLast (fun p => p.1.rank)
    (trickCards.filter (fun p => p.1.suit == leadSuit))).map (fun p => p.2)

end Core

namespace Sim

/-- `HeartsGame::get_valid_moves` from `src/game-simulation/src/game.rs`
(lines 104-137).  It differs from the `game-core` version: when leading
(`is_first_card`) it only gates Hearts, so the first-trick penalty filter
is unreachable for a leader. -/
def get_valid_moves (tricksEmpty heartsBroken : Bool) (hand : List Card)
    (leadSuit : Option Char) (isFirstCard : Bool) : List Card :=
  let twoClubs := Core.get_two_of_clubs hand
  if isFirstCard && tricksEmpty && !twoClubs.isEmpty then
    twoClubs
  else
    let suitCards := match leadSuit with
      | some l => Core.must_follow_suit hand l
      | none => []
    if !suitCards.isEmpty then
      suitCards
    else if isFirstCard then
      if !heartsBroken then Core.avoid_hearts hand else hand
    else if tricksEmpty then
      Core.avoid_penalties hand
    else
      hand

/-- `HeartsGame::determine_trick_winner` from
`src/game-simulation/src/game.rs` (lines 139-146): identical to the
`game-core` version up to the `enumerate` it drops. -/
def determine_trick_winner (trickCards : List (Card × Nat)) (leadSuit : Char) :
    Option Nat :=
  (maxByKeyLast (fun p => p.1.rank)
    (trickCards.filter (fun p => p.1.suit == leadSuit))).map (fun p => p.2)

end Sim

/-! ### Facts about the fold-based min/max selectors -/

theorem minFold_mem (key : α → Nat) :
    ∀ (xs : List α) (x : α), minFold key x xs ∈ x :: xs := by
  intro xs
  induction xs with
  | nil => intro x; simp [minFold]
  | cons y ys ih =>
    intro x
    simp only [minFold, List.foldl_cons] at *
    by_cases hxy : key y < key x
    · rw [if_pos hxy]
      rcases List.mem_cons.mp (ih y) with h1 | h1
      · rw [h1]; simp
      · simp [h1]
    · rw [if_neg hxy]
      rcases List.mem_cons.mp (ih x) with h1 | h1
      · rw [h1]; simp
      · simp [h1]

theorem minFold_le (key : α → Nat) :
    ∀ (xs : List α) (x : α) (z : α), z ∈ x :: xs → key (minFold key x xs) ≤ key z := by
  intro xs
  induction xs with
  | nil => intro x z hz; simp at hz; simp [minFold, hz]
  | cons y ys ih =>
    intro x z hz
    simp only [minFold, List.foldl_cons] at *
    have hb : key (minFold key (if key y < key x then y else x) ys)
        ≤ key (if key y < key x then y else x) :=
      ih _ _ (List.mem_cons_self _ _)
    rcases List.mem_cons.mp hz with h1 | h1
    · subst h1
      refine le_trans hb ?_
      split <;> omega
    · rcases List.mem_cons.mp h1 with h2 | h2
      · subst h2
        refine le_trans hb ?_
        split <;> omega
      · exact ih _ _ (List.mem_cons_of_mem _ h2)

theorem maxFold_mem (key : α → Nat) :
    ∀ (xs : List α) (x : α), maxFold key x xs ∈ x :: xs := by
  intro xs
  induction xs with
  | nil => intro x; simp [maxFold]
  | cons y ys ih =>
    intro x
    simp only [maxFold, List.foldl_cons] at *
    by_cases hxy : key x ≤ key y
    · rw [if_pos hxy]
      rcases List.mem_cons.mp (ih y) with h1 | h1
      · rw [h1]; simp
      · simp [h1]
    · rw [if_neg hxy]
      rcases List.mem_cons.mp (ih x) with h1 | h1
      · rw [h1]; simp
      · simp [h1]

theorem maxFold_ge (key : α → Nat) :
    ∀ (xs : List α) (x : α) (z : α), z ∈ x :: xs → key z ≤ key (maxFold key x xs) := by
  intro xs
  induction xs with
  | nil => intro x z hz; simp at hz; simp [maxFold, hz]
  | cons y ys ih =>
    intro x z hz
    simp only [maxFold, List.foldl_cons] at *
    have hb : key (if key x ≤ key y then y else x)
        ≤ key (maxFold key (if key x ≤ key y then y else x) ys) :=
      ih _ _ (List.mem_cons_self _ _)
    rcases List.mem_cons.mp hz with h1 | h1
    · subst h1
      refine le_trans ?_ hb
      split <;> omega
    · rcases List.mem_cons.mp h1 with h2 | h2
      · subst h2
        refine le_trans ?_ hb
        split <;> omega
      · exact ih _ _ (List.mem_cons_of_mem _ h2)

theorem maxByKeyLast_spec (key : α → Nat) (l : List α) (hne : l ≠ []) :
    ∃ x, maxByKeyLast key l = some x ∧ x ∈ l ∧ ∀ z ∈ l, key z ≤ key x := by
  cases l with
  | nil => exact absurd rfl hne
  | cons a as =>
    exact ⟨maxFold key a as, rfl, maxFold_mem key as a, fun z hz => maxFold_ge key as a z hz⟩

theorem maxByKeyLast_mem (key : α → Nat) (l : List α) (x : α)
    (h : maxByKeyLast key l = some x) : x ∈ l := by
  cases l with
  | nil => simp [maxByKeyLast] at h
  | cons a as =>
    simp only [maxByKeyLast, Option.some.injEq] at h
    subst h
    exact maxFold_mem key as a

theorem minByKeyFirst_mem (key : α → Nat) (l : List α) (x : α)
    (h : minByKeyFirst key l = some x) : x ∈ l := by
  cases l with
  | nil => simp [minByKeyFirst] at h
  | cons a as =>
    simp only [minByKeyFirst, Option.some.injEq] at h
    subst h
    exact minFold_mem key as a

/-- The fold underlying `min_by_key` picks the FIRST minimum: the list
splits around the result, and every element strictly before it has a
strictly larger key. -/
theorem minFold_split (key : α → Nat) :
    ∀ (xs : List α) (x : α),
      ∃ l₁ l₂, x :: xs = l₁ ++ minFold key x xs :: l₂ ∧
        ∀ z ∈ l₁, key (minFold key x xs) < key z := by
  intro xs
  induction xs with
  | nil =>
    intro x
    exact ⟨[], [], by simp [minFold], by simp⟩
  | cons y ys ih =>
    intro x
    obtain ⟨m₁, m₂, hsplit, hlt⟩ := ih (if key y < key x then y else x)
    have hres : minFold key x (y :: ys)
        = minFold key (if key y < key x then y else x) ys := by
      simp [minFold]
    by_cases hxy : key y < key x
    · -- the accumulator becomes y; x joins the strict prefix
      simp only [if_pos hxy] at hsplit hlt
      refine ⟨x :: m₁, m₂, ?_, ?_⟩
      · simpa [hres, if_pos hxy] using congrArg (x :: ·) hsplit
      · intro z hz
        rw [hres, if_pos hxy]
        rcases List.mem_cons.mp hz with h1 | h1
        · subst h1
          have hle : key (minFold key y ys) ≤ key y :=
            minFold_le key ys y y (List.mem_cons_self _ _)
          omega
        · exact hlt z h1
    · -- the accumulator stays x
      simp only [if_neg hxy] at hsplit hlt
      cases m₁ with
      | nil =>
        -- the result is x itself, sitting at the very front
        simp only [List.nil_append, List.cons.injEq] at hsplit
        refine ⟨[], y :: ys, ?_, by simp⟩
        rw [hres, if_neg hxy, ← hsplit.1]
        simp
      | cons b m₁' =>
        -- the result lies inside ys; x and y both precede it strictly
        simp only [List.cons_append, List.cons.injEq] at hsplit
        obtain ⟨hbx, htail⟩ := hsplit
        subst hbx
        refine ⟨x :: y :: m₁', m₂, ?_, ?_⟩
        · rw [hres, if_neg hxy]
          simpa using congrArg (fun t => x :: y :: t) htail
        · intro z hz
          rw [hres, if_neg hxy]
          have hx : key (minFold key x ys) < key x := by
            have := hlt x (List.mem_cons_self _ _)
            exact this
          rcases List.mem_cons.mp hz with h1 | h1
          · subst h1; exact hx
          · rcases List.mem_cons.mp h1 with h2 | h2
            · subst h2; omega
            · exact hlt z (List.mem_cons_of_mem _ h2)

/-! ### Legal-move helper lemmas -/

namespace Core

theorem must_follow_suit_subset (hand : List Card) (l : Char) :
    ∀ c ∈ must_follow_suit hand l, c ∈ hand := by
  intro c hc
  exact List.mem_of_mem_filter hc

theorem avoid_hearts_subset (hand : List Card) :
    ∀ c ∈ avoid_hearts hand, c ∈ hand := by
  intro c hc
  simp only [avoid_hearts] at hc
  split at hc
  · exact hc
  · exact List.mem_of_mem_filter hc

theorem avoid_hearts_ne (hand : List Card) (h : hand ≠ []) :
    avoid_hearts hand ≠ [] := by
  simp only [avoid_hearts]
  split
  · exact h
  · next hne => simpa [List.isEmpty_iff] using hne

theorem avoid_penalties_subset (hand : List Card) :
    ∀ c ∈ avoid_penalties hand, c ∈ hand := by
  intro c hc
  simp only [avoid_penalties] at hc
  split at hc
  · exact hc
  · exact List.mem_of_mem_filter hc

theorem avoid_penalties_ne (hand : List Card) (h : hand ≠ []) :
    avoid_penalties hand ≠ [] := by
  simp only [avoid_penalties]
  split
  · exact h
  · next hne => simpa [List.isEmpty_iff] using hne

theorem get_valid_moves_subset (te hb : Bool) (hand : List Card)
    (ls : Option Char) (fc : Bool) :
    ∀ c ∈ get_valid_moves te hb hand ls fc, c ∈ hand := by
  intro c hc
  rcases ls with _ | l <;>
    simp only [get_valid_moves] at hc <;>
    split at hc
  · exact List.mem_of_mem_filter hc
  · split at hc
    · simp at hc
    · split at hc
      · exact avoid_penalties_subset hand c hc
      · split at hc
        · split at hc
          · exact avoid_hearts_subset hand c hc
          · exact hc
        · exact hc
  · exact List.mem_of_mem_filter hc
  · split at hc
    · exact must_follow_suit_subset hand l c hc
    · split at hc
      · exact avoid_penalties_subset hand c hc
      · split at hc
        · split at hc
          · exact avoid_hearts_subset hand c hc
          · exact hc
        · exact hc

theorem get_valid_moves_ne (te hb : Bool) (hand : List Card)
    (ls : Option Char) (fc : Bool) (h : hand ≠ []) :
    get_valid_moves te hb hand ls fc ≠ [] := by
  rcases ls with _ | l <;>
    simp only [get_valid_moves] <;>
    split
  · next hcond =>
    simp only [Bool.and_eq_true] at hcond
    simpa [List.isEmpty_iff] using hcond.2
  · split
    · next hcond => simp at hcond
    · split
      · exact avoid_penalties_ne hand h
      · split
        · split
          · next hcond => simpa [List.isEmpty_iff] using hcond
          · exact h
        · exact h
  · next hcond =>
    simp only [Bool.and_eq_true] at hcond
    simpa [List.isEmpty_iff] using hcond.2
  · split
    · next hcond => simpa [List.isEmpty_iff] using hcond
    · split
      · exact avoid_penalties_ne hand h
      · split
        · split
          · next hcond => simpa [List.isEmpty_iff] using hcond
          · exact h
        · exact h

end Core

namespace Sim

theorem sim_valid_moves_subset (te hb : Bool) (hand : List Card)
    (ls : Option Char) (fc : Bool) :
    ∀ c ∈ get_valid_moves te hb hand ls fc, c ∈ hand := by
  intro c hc
  rcases ls with _ | l <;>
    simp only [get_valid_moves] at hc <;>
    split at hc
  · exact List.mem_of_mem_filter hc
  · split at hc
    · simp at hc
    · split at hc
      · split at hc
        · exact Core.avoid_hearts_subset hand c hc
        · exact hc
      · split at hc
        · exact Core.avoid_penalties_subset hand c hc
        · exact hc
  · exact List.mem_of_mem_filter hc
  · split at hc
    · exact Core.must_follow_suit_subset hand l c hc
    · split at hc
      · split at hc
        · exact Core.avoid_hearts_subset hand c hc
        · exact hc
      · split at hc
        · exact Core.avoid_penalties_subset hand c hc
        · exact hc

theorem sim_valid_moves_ne (te hb : Bool) (hand : List Card)
    (ls : Option Char) (fc : Bool) (h : hand ≠ []) :
    get_valid_moves te hb hand ls fc ≠ [] := by
  rcases ls with _ | l <;>
    simp only [get_valid_moves] <;>
    split
  · next hcond =>
    simp only [Bool.and_eq_true] at hcond
    simpa [List.isEmpty_iff] using hcond.2
  · split
    · next hcond => simp at hcond
    · split
      · split
        · exact Core.avoid_hearts_ne hand h
        · exact h
      · split
        · exact Core.avoid_penalties_ne hand h
        · exact h
  · next hcond =>
    simp only [Bool.and_eq_true] at hcond
    simpa [List.isEmpty_iff] using hcond.2
  · split
    · next hcond => simpa [List.isEmpty_iff] using hcond
    · split
      · split
        · exact Core.avoid_hearts_ne hand h
        · exact h
      · split
        · exact Core.avoid_penalties_ne hand h
        · exact h

end Sim

/-- C2: for every non-empty hand and every table state (any lead suit or
none, any hearts-broken flag, first-trick flag and first-card flag),
`get_valid_moves` — in both the `game-core` and the `game-simulation`
implementation — returns a non-empty list all of whose cards belong to
the hand: every filter that would empty the result falls back to a wider
set, ultimately the full hand. -/
theorem C2_valid_moves_nonempty_subset (te hb : Bool) (hand : List Card)
    (ls : Option Char) (fc : Bool) (hne : hand ≠ []) :
    (Core.get_valid_moves te hb hand ls fc ≠ [] ∧
      ∀ c ∈ Core.get_valid_moves te hb hand ls fc, c ∈ hand) ∧
    (Sim.get_valid_moves te hb hand ls fc ≠ [] ∧
      ∀ c ∈ Sim.get_valid_moves te hb hand ls fc, c ∈ hand) :=
  ⟨⟨Core.get_valid_moves_ne te hb hand ls fc hne,
    Core.get_valid_moves_subset te hb hand ls fc⟩,
   ⟨Sim.sim_valid_moves_ne te hb hand ls fc hne,
    Sim.sim_valid_moves_subset te hb hand ls fc⟩⟩

/-- Witness for C2: a hand of all Hearts, leading with hearts not broken,
still yields a non-empty subset of the hand. -/
theorem C2_valid_moves_nonempty_subset_witness :
    ([(⟨'H', 4⟩ : Card), ⟨'H', 9⟩] : List Card) ≠ [] ∧
    ((Core.get_valid_moves false false [⟨'H', 4⟩, ⟨'H', 9⟩] none true ≠ [] ∧
      ∀ c ∈ Core.get_valid_moves false false [⟨'H', 4⟩, ⟨'H', 9⟩] none true,
        c ∈ [(⟨'H', 4⟩ : Card), ⟨'H', 9⟩]) ∧
     (Sim.get_valid_moves false false [⟨'H', 4⟩, ⟨'H', 9⟩] none true ≠ [] ∧
      ∀ c ∈ Sim.get_valid_moves false false [⟨'H', 4⟩, ⟨'H', 9⟩] none true,
        c ∈ [(⟨'H', 4⟩ : Card), ⟨'H', 9⟩])) :=
  ⟨by decide,
   C2_valid_moves_nonempty_subset false false [⟨'H', 4⟩, ⟨'H', 9⟩] none true (by decide)⟩

/-- Shared analysis of `determine_trick_winner` (both crates define it
identically): total when the head card matches the lead suit, returning
a seat that played a maximal-rank lead-suit card. -/
theorem determine_trick_winner_spec (tc : List (Card × Nat)) (lead : Char)
    (hd : Card × Nat) (hhd : tc.head? = some hd) (hsuit : hd.1.suit = lead) :
    ∃ c w, Core.determine_trick_winner tc lead = some w ∧
      (c, w) ∈ tc ∧ c.suit = lead ∧
      ∀ c' p', (c', p') ∈ tc → c'.suit = lead → c'.rank ≤ c.rank := by
  have hdmem : hd ∈ tc := by
    cases tc with
    | nil => simp at hhd
    | cons a as =>
      simp only [List.head?_cons, Option.some.injEq] at hhd
      simp [hhd]
  have hdf : hd ∈ tc.filter (fun p => p.1.suit == lead) := by
    rw [List.mem_filter]
    exact ⟨hdmem, by simp [hsuit]⟩
  have hfne : tc.filter (fun p => p.1.suit == lead) ≠ [] := by
    intro h
    rw [h] at hdf
    simp at hdf
  obtain ⟨p, hmax, hpmem, hge⟩ :=
    maxByKeyLast_spec (fun p : Card × Nat => p.1.rank) _ hfne
  rw [List.mem_filter] at hpmem
  refine ⟨p.1, p.2, ?_, ?_, ?_, ?_⟩
  · unfold Core.determine_trick_winner
    rw [hmax]
    rfl
  · simpa using hpmem.1
  · simpa using hpmem.2
  · intro c' p' hmem' hsuit'
    have : (c', p') ∈ tc.filter (fun p => p.1.suit == lead) := by
      rw [List.mem_filter]
      exact ⟨hmem', by simp [hsuit']⟩
    exact hge _ this

/-- C1: for a completed four-card trick whose first played card
establishes the lead suit, `determine_trick_winner` (identical in
`game-core` and `game-simulation`) is total — its internal `unwrap`
cannot fail because the lead card itself matches the lead suit — and
returns the seat that played a lead-suit card of maximal rank among the
lead-suit cards; a seat is only ever returned together with a card of the
lead suit. -/
theorem C1_trick_winner (tc : List (Card × Nat)) (lead : Char) (hd : Card × Nat)
    (hlen : tc.length = 4) (hhd : tc.head? = some hd) (hsuit : hd.1.suit = lead) :
    ∃ c w, Core.determine_trick_winner tc lead = some w ∧
      Sim.determine_trick_winner tc lead = some w ∧
      (c, w) ∈ tc ∧ c.suit = lead ∧
      ∀ c' p', (c', p') ∈ tc → c'.suit = lead → c'.rank ≤ c.rank := by
  obtain ⟨c, w, hdet, hmem, hcsuit, hmax⟩ :=
    determine_trick_winner_spec tc lead hd hhd hsuit
  exact ⟨c, w, hdet, hdet, hmem, hcsuit, hmax⟩

/-- Witness for C1: seat 1 wins with the ♦9 over the ♦5 lead; the ♥3 and
♠Q do not contest. -/
theorem C1_trick_winner_witness :
    ([((⟨'D', 5⟩ : Card), 2), (⟨'H', 3⟩, 3), (⟨'S', 12⟩, 0), (⟨'D', 9⟩, 1)].length = 4) ∧
    ([((⟨'D', 5⟩ : Card), 2), (⟨'H', 3⟩, 3), (⟨'S', 12⟩, 0), (⟨'D', 9⟩, 1)].head?
        = some (⟨'D', 5⟩, 2)) ∧
    ((⟨'D', 5⟩ : Card), 2).1.suit = 'D' ∧
    ∃ c w,
      Core.determine_trick_winner
        [((⟨'D', 5⟩ : Card), 2), (⟨'H', 3⟩, 3), (⟨'S', 12⟩, 0), (⟨'D', 9⟩, 1)] 'D'
        = some w ∧
      Sim.determine_trick_winner
        [((⟨'D', 5⟩ : Card), 2), (⟨'H', 3⟩, 3), (⟨'S', 12⟩, 0), (⟨'D', 9⟩, 1)] 'D'
        = some w ∧
      (c, w) ∈ [((⟨'D', 5⟩ : Card), 2), (⟨'H', 3⟩, 3), (⟨'S', 12⟩, 0), (⟨'D', 9⟩, 1)] ∧
      c.suit = 'D' ∧
      ∀ c' p', (c', p') ∈
          [((⟨'D', 5⟩ : Card), 2), (⟨'H', 3⟩, 3), (⟨'S', 12⟩, 0), (⟨'D', 9⟩, 1)] →
        c'.suit = 'D' → c'.rank ≤ c.rank :=
  ⟨by decide, by decide, by decide,
   C1_trick_winner _ 'D' (⟨'D', 5⟩, 2) (by decide) (by decide) (by decide)⟩

/-- C5 counterexample: on the first trick (`tricks` empty), a player who
holds the Queen of Spades and the five of Spades and must follow a Spade
lead receives both cards — the Queen of Spades, a penalty card, included —
from `get_valid_moves` of both implementations, although the hand is not
all-penalty.  Penalty cards are therefore NOT excluded "in every
position" on the first trick: the follow-suit rule outranks the penalty
filter. -/
theorem C5_counterexample :
    Core.get_valid_moves true false [⟨'S', 12⟩, ⟨'S', 5⟩] (some 'S') false
      = [⟨'S', 12⟩, ⟨'S', 5⟩] ∧
    Sim.get_valid_moves true false [⟨'S', 12⟩, ⟨'S', 5⟩] (some 'S') false
      = [⟨'S', 12⟩, ⟨'S', 5⟩] ∧
    (Card.mk 'S' 12).is_penalty = true ∧
    (Card.mk 'S' 5).is_penalty = false := by decide

/-- C5 amended: the rules are applied in the code's priority order
(two of clubs, follow suit, first-trick penalty filter, hearts gating).
On the first trick: (1) a player able to follow the led suit receives
exactly their cards of that suit, penalty cards included (both
implementations, for a non-leading player); (2) only when the follow-suit
rule does not apply are penalty cards excluded — in `game-core` in every
such position, in `game-simulation` only for non-leading players (a
first-trick leader there is merely barred from Hearts) — unless the hand
contains only penalty cards, in which case the whole hand is returned. -/
theorem C5_first_trick_priority (hand : List Card) (ls : Option Char) (fc hb : Bool) :
    (∀ l, ls = some l → fc = false → Core.must_follow_suit hand l ≠ [] →
      Core.get_valid_moves true hb hand ls fc = Core.must_follow_suit hand l ∧
      Sim.get_valid_moves true hb hand ls fc = Core.must_follow_suit hand l) ∧
    ((∀ l, ls = some l → Core.must_follow_suit hand l = []) →
      ((∃ c ∈ hand, c.is_penalty = false) →
        (∀ c ∈ Core.get_valid_moves true hb hand ls fc, c.is_penalty = false) ∧
        (fc = false →
          ∀ c ∈ Sim.get_valid_moves true hb hand ls fc, c.is_penalty = false)) ∧
      ((∀ c ∈ hand, c.is_penalty = true) → fc = false →
        Core.get_valid_moves true hb hand ls fc = hand ∧
        Sim.get_valid_moves true hb hand ls fc = hand)) := by
  constructor
  · intro l hls hfc hfol
    subst hls hfc
    constructor
    · simp only [Core.get_valid_moves]
      rw [if_neg (by simp)]
      rw [if_pos (by simpa [List.isEmpty_iff] using hfol)]
    · simp only [Sim.get_valid_moves]
      rw [if_neg (by simp)]
      rw [if_pos (by simpa [List.isEmpty_iff] using hfol)]
  · intro hfol
    have hap : (∃ c ∈ hand, c.is_penalty = false) →
        ∀ c ∈ Core.avoid_penalties hand, c.is_penalty = false := by
      rintro ⟨c₀, hc₀, hsafe₀⟩ c hc
      simp only [Core.avoid_penalties] at hc
      split at hc
      · next hemp =>
        exfalso
        have hmem : c₀ ∈ hand.filter (fun c => !c.is_penalty) := by
          rw [List.mem_filter]
          exact ⟨hc₀, by simp [hsafe₀]⟩
        rw [List.isEmpty_iff.mp hemp] at hmem
        simp at hmem
      · have := (List.mem_filter.mp hc).2
        simpa using this
    constructor
    · intro hex
      constructor
      · intro c hc
        rcases ls with _ | l
        · simp only [Core.get_valid_moves] at hc
          split at hc
          · have := (List.mem_filter.mp hc).2
            simp only [Bool.and_eq_true, beq_iff_eq] at this
            simp [Card.is_penalty, this.1]
          · rw [if_neg (by simp)] at hc
            rw [if_pos trivial] at hc
            exact hap hex c hc
        · simp only [Core.get_valid_moves] at hc
          rw [hfol l rfl] at hc
          split at hc
          · have := (List.mem_filter.mp hc).2
            simp only [Bool.and_eq_true, beq_iff_eq] at this
            simp [Card.is_penalty, this.1]
          · rw [if_neg (by simp)] at hc
            rw [if_pos trivial] at hc
            exact hap hex c hc
      · intro hfc c hc
        subst hfc
        rcases ls with _ | l
        · simp only [Sim.get_valid_moves] at hc
          rw [if_neg (by simp)] at hc
          rw [if_neg (by simp)] at hc
          rw [if_neg (by simp)] at hc
          rw [if_pos trivial] at hc
          exact hap hex c hc
        · simp only [Sim.get_valid_moves] at hc
          rw [hfol l rfl] at hc
          rw [if_neg (by simp)] at hc
          rw [if_neg (by simp)] at hc
          rw [if_neg (by simp)] at hc
          rw [if_pos trivial] at hc
          exact hap hex c hc
    · intro hall hfc
      subst hfc
      have hapall : Core.avoid_penalties hand = hand := by
        simp only [Core.avoid_penalties]
        have hfe : hand.filter (fun c => !c.is_penalty) = [] := by
          rw [List.filter_eq_nil_iff]
          intro c hc
          simp [hall c hc]
        rw [hfe]
        simp
      constructor
      · rcases ls with _ | l
        · simp only [Core.get_valid_moves]
          rw [if_neg (by simp)]
          rw [if_neg (by simp)]
          rw [if_pos trivial]
          exact hapall
        · simp only [Core.get_valid_moves]
          rw [hfol l rfl]
          rw [if_neg (by simp)]
          rw [if_neg (by simp)]
          rw [if_pos trivial]
          exact hapall
      · rcases ls with _ | l
        · simp only [Sim.get_valid_moves]
          rw [if_neg (by simp)]
          rw [if_neg (by simp)]
          rw [if_neg (by simp)]
          rw [if_pos trivial]
          exact hapall
        · simp only [Sim.get_valid_moves]
          rw [hfol l rfl]
          rw [if_neg (by simp)]
          rw [if_neg (by simp)]
          rw [if_neg (by simp)]
          rw [if_pos trivial]
          exact hapall

/-- Witness for C5 (amended): a first-trick non-leader with no Spade who
holds a Club and a Heart, under a Spade lead, is offered only non-penalty
cards. -/
theorem C5_first_trick_priority_witness :
    (∀ l, (some 'S' : Option Char) = some l →
      Core.must_follow_suit [(⟨'C', 5⟩ : Card), ⟨'H', 2⟩] l = []) ∧
    (∃ c ∈ [(⟨'C', 5⟩ : Card), ⟨'H', 2⟩], c.is_penalty = false) ∧
    ∀ c ∈ Core.get_valid_moves true false [⟨'C', 5⟩, ⟨'H', 2⟩] (some 'S') false,
      c.is_penalty = false := by
  refine ⟨by decide, by decide, ?_⟩
  exact (((C5_first_trick_priority [⟨'C', 5⟩, ⟨'H', 2⟩] (some 'S') false false).2
    (by decide)).1 (by decide)).1

namespace DeckRs

/-- `Deck::rotate` (`src/game-core-rs/src/deck.rs`, lines 42-47): clones
the card vector and calls `Vec::rotate_left(rotation)`, which moves the
first `rotation` elements to the end; it performs no validation, and
`rotate_left` panics (modelled as `none`) exactly when the amount exceeds
the vector's length.  No `InvalidRotation` error exists in the crate. -/
def rotate (cards : List Card) (rotation : Nat) : Option (List Card) :=
  if rotation ≤ cards.length then some (cards.drop rotation ++ cards.take rotation)
  else none

end DeckRs

/-- C9 counterexample: rotating the full 52-card deck by 52 — an amount
outside `[0, deck size)` — does NOT fail: it returns the deck unchanged,
so no `InvalidRotation` condition is raised there. -/
theorem C9_rotate_counterexample :
    DeckRs.rotate fullDeck 52 = some fullDeck ∧ ¬ (52 < fullDeck.length) := by
  constructor
  · unfold DeckRs.rotate
    rw [if_pos (by decide)]
    rw [show fullDeck.drop 52 = [] by decide]
    rw [show fullDeck.take 52 = fullDeck by decide]
    rfl
  · decide

/-- C9 amended: `rotate` validates nothing.  For every amount `k` up to
and including the deck size it returns a new deck that is the original
sequence left-rotated by `k` — a permutation of the original (no
reshuffle), of the same length, with `k` = deck size giving back the
original order — and for `k` greater than the deck size it panics
(`rotate_left` index panic) instead of failing with an `InvalidRotation`
error value, which does not exist in the code. -/
theorem C9_rotate_behaviour (cards : List Card) (k : Nat) :
    (k ≤ cards.length →
      DeckRs.rotate cards k = some (cards.drop k ++ cards.take k) ∧
      (cards.drop k ++ cards.take k).Perm cards ∧
      (cards.drop k ++ cards.take k).length = cards.length) ∧
    (cards.length < k → DeckRs.rotate cards k = none) ∧
    DeckRs.rotate cards cards.length = some cards := by
  refine ⟨?_, ?_, ?_⟩
  · intro hk
    refine ⟨by unfold DeckRs.rotate; rw [if_pos hk], ?_, ?_⟩
    · have hperm : (cards.drop k ++ cards.take k).Perm (cards.take k ++ cards.drop k) :=
        List.perm_append_comm
      rwa [List.take_append_drop] at hperm
    · simp only [List.length_append, List.length_drop, List.length_take]
      omega
  · intro hk
    unfold DeckRs.rotate
    rw [if_neg (by omega)]
  · unfold DeckRs.rotate
    rw [if_pos le_rfl]
    simp

/-- Witness for C9 (amended): rotating the full deck by 3 succeeds and
permutes without reshuffling. -/
theorem C9_rotate_behaviour_witness :
    DeckRs.rotate fullDeck 3 = some (fullDeck.drop 3 ++ fullDeck.take 3) ∧
    (fullDeck.drop 3 ++ fullDeck.take 3).Perm fullDeck ∧
    (fullDeck.drop 3 ++ fullDeck.take 3).length = fullDeck.length :=
  (C9_rotate_behaviour fullDeck 3).1 (by decide)

/-! ### The decision policies (`src/game-core-rs/src/strategy.rs`)

`game-core-rs/src/models.rs` is not among the sources; the shapes of
`GameState`, `Trick` and `CompletedTrick` below are recovered from their
uses in `strategy.rs` and from the matching declarations in
`src/game-core/src/models.rs`.  The RNG draw of `RandomStrategy` and the
HTTP exchange of `AIStrategy` are made explicit oracle arguments. -/

/-- `Card::is_queen_of_spades` (`src/game-core/src/models.rs`). -/
def Card.is_queen_of_spades (c : Card) : Bool :=
  c.suit == 'S' && c.rank == 12

/-- `CompletedTrick` (`src/game-core/src/models.rs`). -/
structure CompletedTrick where
  cards : List Card
  winner : Nat
  points : Nat
  first_player_index : Nat
deriving DecidableEq, Repr

/-- In-progress `Trick` (`src/game-core/src/models.rs`): one optional
slot per seat. -/
structure Trick where
  cards : List (Option Card)
  first_player_index : Nat
deriving DecidableEq, Repr

/-- `Trick::is_first_card`: no slot filled yet. -/
def Trick.is_first_card (t : Trick) : Bool :=
  t.cards.all (fun c => c.isNone)

/-- `GameState` as used by `strategy.rs`: prior tricks, the in-progress
trick, and the acting player's hand. -/
structure GameState where
  previous_tricks : List CompletedTrick
  current_trick : Trick
  player_hand : List Card
deriving DecidableEq, Repr

/-- `PredictResponse` (`src/game-core-rs/src/strategy.rs`): the remote
service names a card by suit and rank. -/
structure PredictResponse where
  suit : Char
  rank : Nat
deriving DecidableEq, Repr

namespace StratRs

/-- `RandomStrategy::choose_card`: a uniformly random element of
`valid_moves` (the draw is the oracle `pick`); on an empty list `choose`
yields `None` and the eagerly evaluated `valid_moves[0]` of `unwrap_or`
panics. -/
def RandomStrategy.choose_card (pick : Nat) (vm : List Card) : Option Card :=
  match vm with
  | [] => none
  | v :: rest => some ((v :: rest).getD (pick % (v :: rest).length) v)

/-- `AvoidPointsStrategy::choose_card`: `min_by_key` over the key that
adds 13 to the rank of penalty cards; `none` models the `unwrap` panic on
an empty list. -/
def AvoidPointsStrategy.choose_card (vm : List Card) : Option Card :=
  minByKeyFirst (fun c : Card => if c.is_penalty then c.rank + 13 else c.rank) vm

/-- `AggressiveStrategy::choose_card`: `max_by_key` over the same key. -/
def AggressiveStrategy.choose_card (vm : List Card) : Option Card :=
  maxByKeyLast (fun c : Card => if c.is_penalty then c.rank + 13 else c.rank) vm

/-- `AIStrategy::choose_card` (`src/game-core-rs/src/strategy.rs`, lines
91-119).  The oracle `resp` is the outcome of the HTTP exchange: `none` =
communication error (the code panics), `some none` = parse failure (the
code falls back to `valid_moves[0]`), `some (some pred)` = a parsed
prediction, matched back against `valid_moves` with `unwrap_or` on the
first valid move.  `game_state.unwrap()` panics when no state is given. -/
def AIStrategy.choose_card (resp : Option (Option PredictResponse)) (vm : List Card)
    (gso : Option GameState) : Option Card :=
  match gso with
  | none => none
  | some _ =>
    match resp with
    | none => none
    | some none => vm.head?
    | some (some pred) =>
      match vm.find? (fun c => c.suit == pred.suit && c.rank == pred.rank) with
      | some c => some c
      | none => vm.head?

/-- `MyStrategy::sorted_hand_from_suit`: the hand's cards of a suit,
stably sorted by rank (`sort_by_key`). -/
def sorted_hand_from_suit (hand : List Card) (suit : Char) : List Card :=
  List.insertionSort (fun a b : Card => a.rank ≤ b.rank)
    (hand.filter (fun c => c.suit == suit))

/-- The per-suit count `number_of_cards_out_per_suit` of
`MyStrategy::choose_card`: cards of the suit in the player's hand, in
all previous tricks, and in the current trick's filled slots. -/
def number_of_cards_out (gs : GameState) (suit : Char) : Nat :=
  (gs.player_hand.filter (fun c => c.suit == suit)).length
  + (gs.previous_tricks.map
      (fun t => (t.cards.filter (fun c => c.suit == suit)).length)).sum
  + ((gs.current_trick.cards.filterMap id).filter (fun c => c.suit == suit)).length

/-- `queen_of_spades_is_out` of `MyStrategy::choose_card`. -/
def queen_of_spades_is_out (gs : GameState) : Bool :=
  gs.previous_tricks.any (fun t => t.cards.any (fun c => c.is_queen_of_spades))

/-- `excluded_suits` of `MyStrategy::choose_card`: Hearts always, Spades
until the Queen of Spades has appeared. -/
def excluded_suits (gs : GameState) : List Char :=
  if queen_of_spades_is_out gs then ['H'] else ['H', 'S']

/-- The final containment check of `MyStrategy::choose_card` (lines
327-332): a computed card outside `valid_moves` is replaced by the first
legal move. -/
def myGate (vm : List Card) (chosen : Card) : Option Card :=
  if vm.contains chosen then some chosen else vm.head?

/-- The leading branch of `MyStrategy::choose_card` (lines 201-235). -/
def myLead (gs : GameState) : Option Card :=
  let suit_with_less_cards :=
    (minByKeyFirst (fun s => number_of_cards_out gs s)
      ((['C', 'D', 'H', 'S']).filter (fun s =>
        decide (number_of_cards_out gs s > 0) && !(excluded_suits gs).contains s))).getD 'C'
  let sorted_hand := sorted_hand_from_suit gs.player_hand suit_with_less_cards
  if number_of_cards_out gs suit_with_less_cards > 7 then
    match sorted_hand with
    | c :: _ => some c
    | [] => gs.player_hand.head?
  else
    match sorted_hand.getLast? with
    | some c => some c
    | none => gs.player_hand.getLast?

/-- The value computed by the following branch of
`MyStrategy::choose_card` (lines 254-325), after the early
`trick_cards_in_suit.is_empty()` return has been ruled out; this value
still passes through the containment check. -/
def myFollowChosen (gs : GameState) (vm : List Card) (lead_suit : Char)
    (trick_cards_in_suit : List Card) : Option Card :=
  match maxByKeyLast (fun c : Card => c.rank) trick_cards_in_suit with
  | none => none
  | some highest =>
    if gs.player_hand.any (fun c => c.suit == lead_suit) then
      let sorted_hand := sorted_hand_from_suit gs.player_hand lead_suit
      let score := ((gs.current_trick.cards.filterMap id).map Card.score).sum
      let should_take_trick := decide (score = 0)
        && decide (number_of_cards_out gs lead_suit < 7)
        && !(excluded_suits gs).contains lead_suit
      if should_take_trick then
        sorted_hand.getLast?
      else
        let lower := sorted_hand.filter (fun c => c.rank < highest.rank)
        if !lower.isEmpty then lower.getLast? else sorted_hand.getLast?
    else
      if gs.player_hand.any (fun c => c.is_queen_of_spades) then
        gs.player_hand.find? (fun c => c.is_queen_of_spades)
      else
        let sorted_hearts := sorted_hand_from_suit gs.player_hand 'H'
        if !sorted_hearts.isEmpty then sorted_hearts.getLast?
        else vm.head?

/-- `MyStrategy::choose_card` (lines 142-333).  The three Rust `return`
statements (no game state; two of clubs on the opening play; no card of
the lead suit in the current trick) bypass the final containment check;
everything else flows through `myGate`. -/
def MyStrategy.choose_card (vm : List Card) (gso : Option GameState) : Option Card :=
  match gso with
  | none => vm.head?
  | some gs =>
    let early2C : Option Card :=
      if gs.current_trick.is_first_card && gs.previous_tricks.isEmpty then
        vm.find? (fun c => c.is_two_of_clubs)
      else none
    match early2C with
    | some c => some c
    | none =>
      if gs.current_trick.is_first_card then
        match myLead gs with
        | none => none
        | some chosen => myGate vm chosen
      else
        match gs.current_trick.cards.get? gs.current_trick.first_player_index with
        | none => none
        | some firstSlot =>
          let lead_suit := (firstSlot.map (fun c => c.suit)).getD 'C'
          let trick_cards_in_suit :=
            (gs.current_trick.cards.filterMap id).filter (fun c => c.suit == lead_suit)
          if trick_cards_in_suit.isEmpty then
            vm.head?
          else
            match myFollowChosen gs vm lead_suit trick_cards_in_suit with
            | none => none
            | some chosen => myGate vm chosen

/-- The `Strategy` sum type of `src/game-core-rs/src/strategy.rs` (lines
336-343), with each variant's oracle data attached. -/
inductive Strategy where
  | Random (pick : Nat)
  | AvoidPoints
  | Aggressive
  | AI (resp : Option (Option PredictResponse))
  | My
deriving DecidableEq, Repr

/-- `Strategy::choose_card` dispatch (lines 345-354). -/
def Strategy.choose_card : Strategy → List Card → Option GameState → Option Card
  | .Random pick, vm, _ => RandomStrategy.choose_card pick vm
  | .AvoidPoints, vm, _ => AvoidPointsStrategy.choose_card vm
  | .Aggressive, vm, _ => AggressiveStrategy.choose_card vm
  | .AI resp, vm, gso => AIStrategy.choose_card resp vm gso
  | .My, vm, gso => MyStrategy.choose_card vm gso

end StratRs

namespace StratCore

/-- `AIStrategy::choose_card` from `src/game-core/src/strategy.rs` (lines
91-120): unlike the `game-core-rs` variant, a communication error also
falls back to `valid_moves[0]` (after printing a message), so no failure
mode is fatal. -/
def AIStrategy.choose_card (resp : Option (Option PredictResponse)) (vm : List Card)
    (gso : Option GameState) : Option Card :=
  match gso with
  | none => none
  | some _ =>
    match resp with
    | none => vm.head?
    | some none => vm.head?
    | some (some pred) =>
      match vm.find? (fun c => c.suit == pred.suit && c.rank == pred.rank) with
      | some c => some c
      | none => vm.head?

end StratCore

theorem mem_of_head?_eq_some (l : List α) (a : α) (h : l.head? = some a) : a ∈ l := by
  cases l with
  | nil => simp at h
  | cons x xs =>
    simp only [List.head?_cons, Option.some.injEq] at h
    simp [h]

theorem getD_mem_of_lt (l : List α) (n : Nat) (d : α) (hn : n < l.length) :
    l.getD n d ∈ l := by
  rw [List.getD_eq_getElem l d hn]
  exact List.getElem_mem hn

theorem myGate_mem (vm : List Card) (chosen c : Card)
    (h : StratRs.myGate vm chosen = some c) : c ∈ vm := by
  unfold StratRs.myGate at h
  split at h
  · next hcont =>
    cases h
    simpa using hcont
  · exact mem_of_head?_eq_some vm c h

theorem myStrategy_mem (vm : List Card) (gso : Option GameState) (c : Card)
    (h : StratRs.MyStrategy.choose_card vm gso = some c) : c ∈ vm := by
  unfold StratRs.MyStrategy.choose_card at h
  rcases gso with _ | gs
  · exact mem_of_head?_eq_some vm c h
  · simp only at h
    split at h
    · next c' hfind =>
      rw [Option.some.inj h] at hfind
      split at hfind
      · exact List.mem_of_find?_eq_some hfind
      · simp at hfind
    · split at h
      · split at h
        · simp at h
        · exact myGate_mem vm _ c h
      · split at h
        · simp at h
        · split at h
          · exact mem_of_head?_eq_some vm c h
          · split at h
            · simp at h
            · exact myGate_mem vm _ c h

/-- C6: every variant of `Strategy::choose_card` — uniform-random,
avoid-points, aggressive, remote `AIStrategy`, heuristic `MyStrategy` —
only ever returns a card belonging to the supplied legal-move list
(whenever it returns at all; `none` models a Rust panic): the random and
greedy variants select directly from the list, the remote predictor's
non-matching responses are replaced via `unwrap_or` by the first legal
move, and `MyStrategy`'s tactical choice passes through the final
containment check that substitutes the first legal move. -/
theorem C6_strategy_returns_legal (s : StratRs.Strategy) (vm : List Card)
    (gso : Option GameState) (hne : vm ≠ []) (c : Card)
    (h : StratRs.Strategy.choose_card s vm gso = some c) :
    c ∈ vm := by
  cases s with
  | Random pick =>
    cases vm with
    | nil => exact absurd rfl hne
    | cons v rest =>
      simp only [StratRs.Strategy.choose_card, StratRs.RandomStrategy.choose_card,
        Option.some.injEq] at h
      rw [← h]
      exact getD_mem_of_lt _ _ _ (Nat.mod_lt _ (by simp))
  | AvoidPoints =>
    exact minByKeyFirst_mem _ vm c h
  | Aggressive =>
    exact maxByKeyLast_mem _ vm c h
  | AI resp =>
    unfold StratRs.Strategy.choose_card StratRs.AIStrategy.choose_card at h
    rcases gso with _ | gs
    · simp at h
    · rcases resp with _ | resp'
      · simp at h
      · rcases resp' with _ | pred
        · exact mem_of_head?_eq_some vm c h
        · simp only at h
          split at h
          · next c' hfind =>
            cases h
            exact List.mem_of_find?_eq_some hfind
          · exact mem_of_head?_eq_some vm c h
  | My =>
    exact myStrategy_mem vm gso c h

/-- Witness for C6: the avoid-points policy on the singleton legal set
containing the two of clubs picks that card, a member of the set. -/
theorem C6_strategy_returns_legal_witness :
    ([(⟨'C', 2⟩ : Card)] : List Card) ≠ [] ∧
    StratRs.Strategy.choose_card .AvoidPoints [⟨'C', 2⟩] none = some ⟨'C', 2⟩ ∧
    (⟨'C', 2⟩ : Card) ∈ [(⟨'C', 2⟩ : Card)] :=
  ⟨by decide, by decide,
   C6_strategy_returns_legal .AvoidPoints [⟨'C', 2⟩] none (by decide) ⟨'C', 2⟩ (by decide)⟩

/-- C7 counterexample: with the remote `AIStrategy` of `game-core-rs`, a
parse failure (`some none`) and a response naming a card outside the
legal-move set both RETURN the first legal move instead of failing: the
decision is silently substituted, contradicting "every parse failure …
is a fatal, loud failure" and "no such failure is silently replaced". -/
theorem C7_ai_counterexample :
    StratRs.AIStrategy.choose_card (some none) [⟨'C', 2⟩]
      (some ⟨[], ⟨[none, none, none, none], 0⟩, []⟩) = some ⟨'C', 2⟩ ∧
    StratRs.AIStrategy.choose_card (some (some ⟨'D', 9⟩)) [⟨'C', 2⟩]
      (some ⟨[], ⟨[none, none, none, none], 0⟩, []⟩) = some ⟨'C', 2⟩ := by
  decide

/-- C7 amended: in `game-core-rs`, only a communication failure of
`AIStrategy::choose_card` is fatal (a panic); a parse failure, and a
parsed response naming a card outside the legal-move set, silently fall
back to the first legal move.  In the `game-core` variant even a
communication failure falls back to the first legal move (after printing
a message), so there no failure mode is fatal at all. -/
theorem C7_ai_failure_modes (vm : List Card) (gs : GameState) :
    StratRs.AIStrategy.choose_card none vm (some gs) = none ∧
    StratRs.AIStrategy.choose_card (some none) vm (some gs) = vm.head? ∧
    (∀ pred, vm.find? (fun c => c.suit == pred.suit && c.rank == pred.rank) = none →
      StratRs.AIStrategy.choose_card (some (some pred)) vm (some gs) = vm.head?) ∧
    StratCore.AIStrategy.choose_card none vm (some gs) = vm.head? ∧
    StratCore.AIStrategy.choose_card (some none) vm (some gs) = vm.head? := by
  refine ⟨rfl, rfl, ?_, rfl, rfl⟩
  intro pred hfind
  simp only [StratRs.AIStrategy.choose_card]
  rw [hfind]

/-- Witness for C7 (amended): a communication failure panics while a
non-matching prediction is substituted by the first legal move. -/
theorem C7_ai_failure_modes_witness :
    StratRs.AIStrategy.choose_card none [⟨'C', 2⟩]
      (some ⟨[], ⟨[none, none, none, none], 0⟩, []⟩) = none ∧
    StratRs.AIStrategy.choose_card (some (some ⟨'D', 9⟩)) [⟨'C', 2⟩]
      (some ⟨[], ⟨[none, none, none, none], 0⟩, []⟩)
      = ([(⟨'C', 2⟩ : Card)] : List Card).head? :=
  ⟨(C7_ai_failure_modes [⟨'C', 2⟩] ⟨[], ⟨[none, none, none, none], 0⟩, []⟩).1,
   (C7_ai_failure_modes [⟨'C', 2⟩] ⟨[], ⟨[none, none, none, none], 0⟩, []⟩).2.2.1
     ⟨'D', 9⟩ (by decide)⟩

/-! ### The training-data filter (`src/cli/src/game_moves_filter.rs`)

The Rust threshold arithmetic is on `f32`, but every quantity involved —
`u8` scores, their difference, a multiplication by 1.25 and one addition —
is exactly representable in `f32` (values bounded by 255 with denominator
4), so the embedding over `ℚ` is exact. -/

/-- `PlayerInfo` (`src/game-core/src/player.rs`). -/
structure PlayerInfo where
  name : String
  initial_hand : List Card
  score : Nat
  strategy : String
deriving DecidableEq, Repr

/-- `CompletedHeartsGame` (`src/game-core/src/models.rs`). -/
structure CompletedHeartsGame where
  players : List PlayerInfo
  previous_tricks : List CompletedTrick
  hearts_broken : Bool
  winner_index : Nat
deriving DecidableEq, Repr

namespace Cli

/-- `GameMovesFilter`: the retained player indices. -/
structure GameMovesFilter where
  good_players : List Nat
deriving DecidableEq, Repr

/-- `GameMovesFilter::new` (lines 7-22): sort the scores, compute the
threshold `s0 + (s1 - s0) * 1.25` from the two lowest, and keep the
indices of all players at or below it.  Indexing `ordered_scores[1]`
panics (`none`) when there are fewer than two players.  Rust's stable
`sort` is `insertionSort` here. -/
def GameMovesFilter.new (game : CompletedHeartsGame) : Option GameMovesFilter :=
  let ordered_scores : List Nat :=
    List.insertionSort (· ≤ ·) (game.players.map (fun p => p.score))
  match ordered_scores with
  | s0 :: s1 :: _ =>
    let threshold : ℚ := (s0 : ℚ) + ((s1 : ℚ) - (s0 : ℚ)) * (5 / 4)
    some ⟨(game.players.enum.filter
        (fun p => decide ((p.2.score : ℚ) ≤ threshold))).map (fun p => p.1)⟩
  | _ => none

/-- `GameMovesFilter::filter` (lines 24-28): keep the pair iff the player
is a good player and the trick does not carry more than one point won by
that same player. -/
def GameMovesFilter.filter (f : GameMovesFilter) (player_index : Nat)
    (trick : CompletedTrick) : Bool :=
  f.good_players.contains player_index
    && (decide (trick.points ≤ 1) || trick.winner != player_index)

/-- The spec's reading of the filter, for comparison: keep the pair iff
the player finished among the better-scoring half of the four players
(fewer than two players scored strictly lower) and the player did not
both win the trick and take penalty points in it (non-zero point
value). -/
def specKeepsPair (scores : List Nat) (i : Nat) (trick : CompletedTrick) : Prop :=
  (scores.filter (fun s => s < scores.getD i 0)).length < 2 ∧
  ¬(trick.winner = i ∧ trick.points ≠ 0)

instance (scores : List Nat) (i : Nat) (trick : CompletedTrick) :
    Decidable (specKeepsPair scores i trick) := by
  unfold specKeepsPair
  infer_instance

/-- The spec-level "lowest score": a direct minimum, not a sort. -/
def lowest (scores : List Nat) : Nat :=
  match scores with
  | [] => 0
  | x :: xs => minFold id x xs

/-- The spec-level second-lowest score: the minimum after removing one
occurrence of the lowest. -/
def secondLowest (scores : List Nat) : Nat :=
  lowest (scores.erase (lowest scores))

theorem lowest_mem (scores : List Nat) (h : scores ≠ []) : lowest scores ∈ scores := by
  cases scores with
  | nil => exact absurd rfl h
  | cons x xs => exact minFold_mem id xs x

theorem lowest_le (scores : List Nat) : ∀ z ∈ scores, lowest scores ≤ z := by
  cases scores with
  | nil => simp
  | cons x xs =>
    intro z hz
    exact minFold_le id xs x z hz

/-- Bridging the code's sort-and-index access to the spec-level minima:
the sorted scores start with the lowest and the second-lowest. -/
theorem insertionSort_head_two (l : List Nat) (h2 : 2 ≤ l.length) :
    ∃ t, List.insertionSort (· ≤ ·) l = lowest l :: secondLowest l :: t := by
  have hlen : (List.insertionSort (· ≤ ·) l).length = l.length :=
    List.length_insertionSort _ l
  have hperm : (List.insertionSort (· ≤ ·) l).Perm l := List.perm_insertionSort _ l
  have hsorted : List.Sorted (· ≤ ·) (List.insertionSort (· ≤ ·) l) :=
    List.sorted_insertionSort _ l
  match hs : List.insertionSort (· ≤ ·) l with
  | [] => rw [hs] at hlen; simp at hlen; omega
  | [a] => rw [hs] at hlen; simp at hlen; omega
  | a :: b :: t =>
    rw [hs] at hperm hsorted
    have hlne : l ≠ [] := by
      intro hl
      rw [hl] at h2
      simp at h2
    have hamem : a ∈ l := hperm.mem_iff.mp (by simp)
    have halow : a = lowest l := by
      have h1 : lowest l ≤ a := lowest_le l a hamem
      have h2' : a ≤ lowest l := by
        have hm : lowest l ∈ a :: b :: t := hperm.symm.mem_iff.mp (lowest_mem l hlne)
        rcases List.mem_cons.mp hm with he | hm'
        · omega
        · exact List.rel_of_sorted_cons hsorted _ hm'
      omega
    have herase : (l.erase a).Perm (b :: t) := by
      have h := hperm.erase a
      rw [List.erase_cons_head] at h
      exact h.symm
    have hbne : l.erase a ≠ [] := by
      intro he
      rw [he] at herase
      have := herase.length_eq
      simp at this
    have hbmem : b ∈ l.erase a := herase.mem_iff.mpr (by simp)
    have hblow : b = secondLowest l := by
      unfold secondLowest
      rw [← halow]
      have h1 : lowest (l.erase a) ≤ b := lowest_le _ b hbmem
      have h2' : b ≤ lowest (l.erase a) := by
        have hm : lowest (l.erase a) ∈ b :: t :=
          herase.mem_iff.mp (lowest_mem _ hbne)
        rcases List.mem_cons.mp hm with he | hm'
        · omega
        · exact List.rel_of_sorted_cons (List.sorted_cons.mp hsorted).2 _ hm'
      omega
    exact ⟨t, by rw [← halow, ← hblow]⟩

end Cli

/-- A concrete completed game with final scores 0, 6, 7, 13 (the repo's
own `test_good_players_identification` scenario). -/
def sampleGame : CompletedHeartsGame :=
  { players := [⟨"Player 1", [], 0, "Random"⟩, ⟨"Player 2", [], 6, "Random"⟩,
                ⟨"Player 3", [], 7, "Random"⟩, ⟨"Player 4", [], 13, "Random"⟩],
    previous_tricks := [],
    hearts_broken := true,
    winner_index := 0 }

/-- C8 counterexample: with final scores 0, 6, 7, 13 the filter's
`good_players` are seats 0, 1 AND 2 — three players, not the
better-scoring half — so the pair (seat 2, a pointless trick won by seat
3) is kept although seat 2 did not finish among the better-scoring half;
and the pair (seat 0, a 1-point trick won by seat 0) is kept although
that player both won the trick and took penalty points in it (the code
rejects only tricks worth MORE than one point). -/
theorem C8_counterexample :
    (Cli.GameMovesFilter.new sampleGame).map (fun f => f.good_players)
      = some [0, 1, 2] ∧
    (Cli.GameMovesFilter.new sampleGame).map (fun f => f.filter 2 ⟨[], 3, 0, 0⟩)
      = some true ∧
    ¬ Cli.specKeepsPair [0, 6, 7, 13] 2 ⟨[], 3, 0, 0⟩ ∧
    (Cli.GameMovesFilter.new sampleGame).map (fun f => f.filter 0 ⟨[], 0, 1, 0⟩)
      = some true ∧
    ¬ Cli.specKeepsPair [0, 6, 7, 13] 0 ⟨[], 0, 1, 0⟩ := by
  have hnew : Cli.GameMovesFilter.new sampleGame = some ⟨[0, 1, 2]⟩ := by
    unfold Cli.GameMovesFilter.new sampleGame
    norm_num [List.insertionSort, List.orderedInsert, List.enum, List.enumFrom,
      List.filter]
  rw [hnew]
  refine ⟨rfl, by decide, by decide, by decide, by decide⟩

/-- C8 amended: for a four-player game, `GameMovesFilter` keeps a
(player, trick) pair iff the player's final score is at most
`s0 + (s1 - s0) * 1.25`, where `s0` and `s1` are the lowest and
second-lowest final scores (a cut that can retain two, three or all four
players — not necessarily the better-scoring half), and the player did
not both win the trick and take a trick worth MORE than one point (a
1-point trick won by the player is still kept). -/
theorem C8_filter_characterisation (game : CompletedHeartsGame)
    (h4 : game.players.length = 4) :
    ∃ f, Cli.GameMovesFilter.new game = some f ∧
      ∀ i trick,
        (f.filter i trick = true ↔
          ((∃ p, game.players.get? i = some p ∧
            (p.score : ℚ) ≤ (Cli.lowest (game.players.map (fun q => q.score)) : ℚ)
              + ((Cli.secondLowest (game.players.map (fun q => q.score)) : ℚ)
                  - (Cli.lowest (game.players.map (fun q => q.score)) : ℚ)) * (5 / 4)) ∧
          (trick.points ≤ 1 ∨ trick.winner ≠ i))) := by
  obtain ⟨t, ht⟩ := Cli.insertionSort_head_two (game.players.map (fun p => p.score))
    (by simp [h4])
  have hnew : Cli.GameMovesFilter.new game
      = some ⟨(game.players.enum.filter
          (fun p => decide ((p.2.score : ℚ)
            ≤ (Cli.lowest (game.players.map (fun q => q.score)) : ℚ)
              + ((Cli.secondLowest (game.players.map (fun q => q.score)) : ℚ)
                  - (Cli.lowest (game.players.map (fun q => q.score)) : ℚ))
                * (5 / 4)))).map (fun p => p.1)⟩ := by
    unfold Cli.GameMovesFilter.new
    rw [ht]
  refine ⟨_, hnew, ?_⟩
  intro i trick
  simp only [Cli.GameMovesFilter.filter, Bool.and_eq_true, Bool.or_eq_true,
    decide_eq_true_eq, bne_iff_ne, List.contains, List.elem_iff, List.mem_map,
    List.mem_filter]
  constructor
  · rintro ⟨⟨⟨j, p⟩, ⟨hmem, hle⟩, hj⟩, hright⟩
    rw [List.mem_enum_iff_get?] at hmem
    simp only at hj
    subst hj
    exact ⟨⟨p, hmem, by simpa using hle⟩, hright⟩
  · rintro ⟨⟨p, hget, hle⟩, hright⟩
    refine ⟨⟨(i, p), ⟨?_, by simpa using hle⟩, rfl⟩, hright⟩
    rw [List.mem_enum_iff_get?]
    exact hget

/-- Witness for C8 (amended): the characterisation applied to the
concrete 0/6/7/13 game. -/
theorem C8_filter_characterisation_witness :
    sampleGame.players.length = 4 ∧
    ∃ f, Cli.GameMovesFilter.new sampleGame = some f ∧
      ∀ i trick,
        (f.filter i trick = true ↔
          ((∃ p, sampleGame.players.get? i = some p ∧
            (p.score : ℚ) ≤ (Cli.lowest (sampleGame.players.map (fun q => q.score)) : ℚ)
              + ((Cli.secondLowest (sampleGame.players.map (fun q => q.score)) : ℚ)
                  - (Cli.lowest (sampleGame.players.map (fun q => q.score)) : ℚ)) * (5 / 4)) ∧
          (trick.points ≤ 1 ∨ trick.winner ≠ i))) :=
  ⟨by decide, C8_filter_characterisation sampleGame (by decide)⟩

/-! ### The game engine (`src/game-core/src/game.rs`, `deck.rs`, `player.rs`)

The strategy call inside `Player::play_card` is abstracted as a function
`choose` receiving the pre-trick game state, the in-trick accumulator and
the valid moves — strictly more information than any Rust strategy sees —
so every decision policy is an instance.  `Vec::retain(|c| *c != chosen)`
is `List.filter (c != ·)`.  The `unwrap`s of `play_trick` are `none`
propagation. -/

namespace Core

/-- A completed `Trick` record of `src/game-core/src/game.rs`: played
`(card, player_index)` pairs in play order, the winner and the points. -/
structure TrickRec where
  cards : List (Card × Nat)
  winner : Nat
  points : Nat
deriving DecidableEq, Repr

/-- The mutable state of `HeartsGame`.  The `tricks` field mirrors
`self.tricks`, which is initialized to `Vec::new()` (line 59) and then
NEVER pushed to anywhere in the crate: `play_game` accumulates completed
tricks in a local vector (lines 212, 219) and `play_trick` does not
touch the field.  Consequently `self.tricks.is_empty()` — which
`get_valid_moves` reads at lines 114 and 130 — stays true for all 13
tricks of a game, the first-trick penalty filter applies on every trick,
and the hearts-broken branch of `get_valid_moves` is dead code in this
crate. -/
structure GameSt where
  hands : List (List Card)
  heartsBroken : Bool
  currentLeader : Nat
  tricks : List TrickRec
deriving DecidableEq, Repr

/-- The loop state of `play_trick`: hands, the hearts flag, the lead suit
once established, the accumulated `trick_cards`, and `current_player`. -/
structure TrickAcc where
  hands : List (List Card)
  heartsBroken : Bool
  leadSuit : Option Char
  trickCards : List (Card × Nat)
  currentPlayer : Nat
deriving DecidableEq, Repr

/-- One iteration of the `for i in 0..4` loop of `play_trick` (lines
160-183): compute the valid moves, let the strategy choose, mark hearts
broken, establish the lead suit, record the play, remove the card from
the hand (`Vec::retain`), advance the seat. -/
def trickStep (tricksEmpty : Bool) (choose : TrickAcc → List Card → Card)
    (acc : TrickAcc) (i : Nat) : TrickAcc :=
  let isFirstCard := i == 0 && acc.trickCards.isEmpty
  let hand := acc.hands.getD acc.currentPlayer []
  let validMoves := get_valid_moves tricksEmpty acc.heartsBroken hand
    acc.leadSuit isFirstCard
  let played := choose acc validMoves
  { hands := acc.hands.set acc.currentPlayer (hand.filter (fun c => c != played)),
    heartsBroken := acc.heartsBroken || played.suit == 'H',
    leadSuit := match acc.leadSuit with
      | none => some played.suit
      | some l => some l,
    trickCards := acc.trickCards ++ [(played, acc.currentPlayer)],
    currentPlayer := (acc.currentPlayer + 1) % 4 }

/-- `HeartsGame::play_trick` (lines 155-208): run the four-seat loop,
unwrap the lead suit, resolve the winner, sum the points (the inline
match of lines 193-201, definitionally `Card::score`), hand the lead to
the winner and RETURN the completed trick.  The `self.tricks` field is
only read (`self.tricks.is_empty()` inside `get_valid_moves`) and is
carried through unchanged — nothing in the crate ever pushes to it, so
along any run started from `initGame` it stays `[]` and the
`tricksEmpty` argument of every `trickStep` is `true`. -/
def play_trick (choose : GameSt → TrickAcc → List Card → Card) (g : GameSt) :
    Option (GameSt × TrickRec) :=
  let acc := [0, 1, 2, 3].foldl (trickStep g.tricks.isEmpty (choose g))
    { hands := g.hands, heartsBroken := g.heartsBroken, leadSuit := none,
      trickCards := [], currentPlayer := g.currentLeader }
  match acc.leadSuit with
  | none => none
  | some lead =>
    match determine_trick_winner acc.trickCards lead with
    | none => none
    | some winner =>
      let points := (acc.trickCards.map (fun tc =>
        if tc.1.suit == 'H' then 1
        else if tc.1.suit == 'S' && tc.1.rank == 12 then 13
        else 0)).sum
      some ({ hands := acc.hands, heartsBroken := acc.heartsBroken,
              currentLeader := winner, tricks := g.tricks },
            ⟨acc.trickCards, winner, points⟩)

/-- The `for _ in 0..13` loop of `play_game`: each completed trick is
pushed to the LOCAL accumulator (`tricks.push(trick)`, line 219) — not
to the `self.tricks` field, which the loop leaves untouched. -/
def play_tricks (choose : GameSt → TrickAcc → List Card → Card) :
    Nat → GameSt → List TrickRec → Option (GameSt × List TrickRec)
  | 0, g, acc => some (g, acc)
  | n + 1, g, acc =>
    match play_trick choose g with
    | none => none
    | some (g', tr) => play_tricks choose n g' (acc ++ [tr])

/-- The score accumulation of `play_game` (lines 211-219):
`scores[trick.winner] += trick.points` over the tricks in order, starting
from four zeroes. -/
def scoresOf (tricks : List TrickRec) : List Nat :=
  tricks.foldl (fun s t => s.set t.winner (s.getD t.winner 0 + t.points))
    [0, 0, 0, 0]

/-- The winner selection of `play_game` (lines 235-240):
`min_by_key` over the enumerated scores — the first minimal seat. -/
def winnerIdx (scores : List Nat) : Option Nat :=
  (minByKeyFirst (fun p => p.2) scores.enum).map (fun p => p.1)

/-- The data of `GameResult` that the claims speak about. -/
structure GameResultRec where
  scores : List Nat
  tricks : List TrickRec
  winner : Nat
deriving DecidableEq, Repr

/-- `HeartsGame::play_game` (lines 210-248): `scores` and `tricks` are
local to the call, exactly as in the source. -/
def play_game (choose : GameSt → TrickAcc → List Card → Card) (g : GameSt) :
    Option GameResultRec :=
  match play_tricks choose 13 g [] with
  | none => none
  | some (_, tricks) =>
    match winnerIdx (scoresOf tricks) with
    | none => none
    | some w => some ⟨scoresOf tricks, tricks, w⟩

/-- The derived `Ord` of the Rust `Card`: lexicographic on
`(suit, rank)`, used only for the deterministic hand sort. -/
def cardLE (a b : Card) : Prop :=
  a.suit < b.suit ∨ (a.suit = b.suit ∧ a.rank ≤ b.rank)

instance : DecidableRel cardLE := fun a b => by
  unfold cardLE
  infer_instance

/-- The round-robin loop of `Deck::deal` (`src/game-core/src/deck.rs`,
lines 24-33): `hands[i % 4].push(card)` over the drained deck. -/
def dealLoop : List Card → Nat → List (List Card) → List (List Card)
  | [], _, hands => hands
  | c :: cs, i, hands =>
    dealLoop cs (i + 1) (hands.set (i % 4) ((hands.getD (i % 4) []) ++ [c]))

/-- `Deck::deal(4)`: round-robin into four hands, then each hand stably
sorted by the derived card order. -/
def deal (cards : List Card) : List (List Card) :=
  (dealLoop cards 0 [[], [], [], []]).map (fun h => List.insertionSort cardLE h)

/-- `HeartsGame::find_starting_player` (lines 64-71): the first seat
holding the two of clubs, else seat 0. -/
def find_starting_player (hands : List (List Card)) : Nat :=
  (hands.findIdx? (fun h => h.any (fun c => c.suit == 'C' && c.rank == 2))).getD 0

/-- `HeartsGame::new_with_strategies` up to the point where play begins:
deal the (shuffled) deck, seat the players, find the two-of-clubs
holder. -/
def initGame (shuffled : List Card) : GameSt :=
  let hands := deal shuffled
  { hands := hands, heartsBroken := false,
    currentLeader := find_starting_player hands, tricks := [] }

/-- The cards recorded as played by a list of completed tricks, in
order. -/
def playedCards (tricks : List TrickRec) : List Card :=
  (tricks.map (fun tr => tr.cards.map (fun p => p.1))).flatten

/-- The engine invariant after the tricks of `played` — `play_game`'s
local accumulator — have been completed, relative to the dealt deck
`deck0`. -/
def Inv (deck0 : List Card) (g : GameSt) (played : List TrickRec) (t : Nat) : Prop :=
  g.hands.length = 4 ∧
  g.currentLeader < 4 ∧
  played.length = t ∧
  (∀ j, j < 4 → (g.hands.getD j []).length = 13 - t) ∧
  (g.hands.flatten ++ playedCards played).Perm deck0 ∧
  (∀ tr ∈ played, tr.winner < 4 ∧ tr.cards.length = 4 ∧
    tr.points = (tr.cards.map (fun p => p.1.score)).sum)

end Core

theorem getD_set_ne (l : List α) (i j : Nat) (a d : α) (h : i ≠ j) :
    (l.set i a).getD j d = l.getD j d := by
  rw [List.getD_eq_getElem?_getD, List.getD_eq_getElem?_getD,
    List.getElem?_set_ne h]

theorem getD_set_self (l : List α) (i : Nat) (a d : α) (h : i < l.length) :
    (l.set i a).getD i d = a := by
  simp [List.getD_eq_getElem?_getD, List.getElem?_set_self', List.getElem?_eq_getElem h]

/-- Removing a played card from the hand at seat `k` and putting the card
aside preserves the multiset of all cards. -/
theorem cons_flatten_set_perm (hands : List (List Card)) (k : Nat)
    (hk : k < hands.length) (c : Card) (hc : c ∈ hands.getD k [])
    (hnd : (hands.getD k []).Nodup) :
    (c :: (hands.set k ((hands.getD k []).filter (fun x => x != c))).flatten).Perm
      hands.flatten := by
  rw [List.getD_eq_getElem hands [] hk] at hc hnd ⊢
  rw [← hnd.erase_eq_filter c]
  have hset : hands.set k (hands[k].erase c)
      = hands.take k ++ (hands[k].erase c) :: hands.drop (k + 1) := by
    rw [List.set_eq_take_append_cons_drop, if_pos hk]
  have hdecomp : hands = hands.take k ++ hands[k] :: hands.drop (k + 1) := by
    conv_lhs => rw [← List.take_append_drop k hands]
    rw [List.drop_eq_getElem_cons hk]
  rw [hset]
  conv_rhs => rw [hdecomp]
  rw [List.flatten_append, List.flatten_cons, List.flatten_append, List.flatten_cons]
  have hhand : (↑(hands[k]) : Multiset Card)
      = c ::ₘ (↑(hands[k].erase c) : Multiset Card) :=
    Multiset.coe_eq_coe.mpr (List.perm_cons_erase hc)
  apply Multiset.coe_eq_coe.mp
  show c ::ₘ ((↑((hands.take k).flatten) : Multiset Card)
        + ((↑(hands[k].erase c) : Multiset Card)
            + (↑((hands.drop (k + 1)).flatten) : Multiset Card)))
      = (↑((hands.take k).flatten) : Multiset Card)
        + ((↑(hands[k]) : Multiset Card)
            + (↑((hands.drop (k + 1)).flatten) : Multiset Card))
  rw [hhand]
  simp only [← Multiset.singleton_add]
  abel

/-- `trickStep` unpacked: the acting player's strategy picks a card from
the valid moves — hence from their hand — and the step performs exactly
the recorded updates. -/
theorem trickStep_fields (te : Bool) (choose : Core.TrickAcc → List Card → Card)
    (hmem : ∀ a vm, vm ≠ [] → choose a vm ∈ vm)
    (acc : Core.TrickAcc) (i : Nat)
    (hne : acc.hands.getD acc.currentPlayer [] ≠ []) :
    ∃ played, played ∈ acc.hands.getD acc.currentPlayer [] ∧
      (Core.trickStep te choose acc i).hands
        = acc.hands.set acc.currentPlayer
            ((acc.hands.getD acc.currentPlayer []).filter (fun c => c != played)) ∧
      (Core.trickStep te choose acc i).leadSuit
        = (match acc.leadSuit with
            | none => some played.suit
            | some l => some l) ∧
      (Core.trickStep te choose acc i).trickCards
        = acc.trickCards ++ [(played, acc.currentPlayer)] ∧
      (Core.trickStep te choose acc i).currentPlayer
        = (acc.currentPlayer + 1) % 4 := by
  refine ⟨choose acc (Core.get_valid_moves te acc.heartsBroken
      (acc.hands.getD acc.currentPlayer []) acc.leadSuit
      (i == 0 && acc.trickCards.isEmpty)), ?_, rfl, rfl, rfl, rfl⟩
  have hvne := Core.get_valid_moves_ne te acc.heartsBroken
    (acc.hands.getD acc.currentPlayer []) acc.leadSuit
    (i == 0 && acc.trickCards.isEmpty) hne
  exact Core.get_valid_moves_subset te acc.heartsBroken _ _ _ _ (hmem _ _ hvne)

/-- The four iterations of the `play_trick` loop, unrolled: starting
from leader `L` with four non-empty duplicate-free hands, the seats
`L, L+1, L+2, L+3 (mod 4)` each play one card of their own hand; the
first card establishes the lead suit; every hand shrinks by exactly one
card; and the played cards together with the remaining hands form the
same multiset as before. -/
theorem four_steps (te : Bool) (ch : Core.TrickAcc → List Card → Card)
    (hmem : ∀ a vm, vm ≠ [] → ch a vm ∈ vm)
    (H : List (List Card)) (hb : Bool) (L : Nat)
    (h4 : H.length = 4) (hL : L < 4)
    (hne : ∀ j, j < 4 → H.getD j [] ≠ [])
    (hnd : H.flatten.Nodup) :
    ∃ c0 c1 c2 c3,
      ([0, 1, 2, 3].foldl (Core.trickStep te ch) ⟨H, hb, none, [], L⟩).leadSuit
        = some c0.suit ∧
      ([0, 1, 2, 3].foldl (Core.trickStep te ch) ⟨H, hb, none, [], L⟩).trickCards
        = [(c0, L), (c1, (L + 1) % 4), (c2, (L + 2) % 4), (c3, (L + 3) % 4)] ∧
      ([0, 1, 2, 3].foldl (Core.trickStep te ch) ⟨H, hb, none, [], L⟩).hands.length = 4 ∧
      (∀ j, j < 4 →
        (([0, 1, 2, 3].foldl (Core.trickStep te ch)
            ⟨H, hb, none, [], L⟩).hands.getD j []).length + 1
          = (H.getD j []).length) ∧
      ((([0, 1, 2, 3].foldl (Core.trickStep te ch)
            ⟨H, hb, none, [], L⟩).hands.flatten
          ++ [c0, c1, c2, c3]).Perm H.flatten) := by
  have hndj : ∀ j, j < 4 → (H.getD j []).Nodup := by
    intro j hj
    exact (List.nodup_flatten.mp hnd).1 _ (getD_mem_of_lt H j [] (by omega))
  simp only [List.foldl_cons, List.foldl_nil]
  -- step 0 (the leader plays)
  obtain ⟨c0, hc0, hh1, hl1, htc1, hcp1⟩ :=
    trickStep_fields te ch hmem ⟨H, hb, none, [], L⟩ 0
      (by show H.getD L [] ≠ []; exact hne L hL)
  dsimp only at hc0 hh1 hl1 htc1 hcp1
  set A1 := Core.trickStep te ch ⟨H, hb, none, [], L⟩ 0 with hA1
  -- step 1
  have hne1 : A1.hands.getD A1.currentPlayer [] ≠ [] := by
    rw [hcp1, hh1, getD_set_ne _ _ _ _ _ (by omega)]
    exact hne ((L + 1) % 4) (by omega)
  obtain ⟨c1, hc1, hh2, hl2, htc2, hcp2⟩ := trickStep_fields te ch hmem A1 1 hne1
  set A2 := Core.trickStep te ch A1 1 with hA2
  rw [hcp1, hh1, getD_set_ne _ _ _ _ _ (by omega)] at hc1
  rw [hcp1, hh1, getD_set_ne _ _ _ _ _ (by omega)] at hh2
  rw [hl1] at hl2
  dsimp only at hl2
  rw [htc1, hcp1] at htc2
  have hcp2' : A2.currentPlayer = (L + 2) % 4 := by rw [hcp2, hcp1]; omega
  -- step 2
  have hne2 : A2.hands.getD A2.currentPlayer [] ≠ [] := by
    rw [hcp2', hh2, getD_set_ne _ _ _ _ _ (by omega), getD_set_ne _ _ _ _ _ (by omega)]
    exact hne ((L + 2) % 4) (by omega)
  obtain ⟨c2, hc2, hh3, hl3, htc3, hcp3⟩ := trickStep_fields te ch hmem A2 2 hne2
  set A3 := Core.trickStep te ch A2 2 with hA3
  rw [hcp2', hh2, getD_set_ne _ _ _ _ _ (by omega),
    getD_set_ne _ _ _ _ _ (by omega)] at hc2
  rw [hcp2', hh2, getD_set_ne _ _ _ _ _ (by omega),
    getD_set_ne _ _ _ _ _ (by omega)] at hh3
  rw [hl2] at hl3
  dsimp only at hl3
  rw [htc2, hcp2'] at htc3
  have hcp3' : A3.currentPlayer = (L + 3) % 4 := by rw [hcp3, hcp2']; omega
  -- step 3
  have hne3 : A3.hands.getD A3.currentPlayer [] ≠ [] := by
    rw [hcp3', hh3, getD_set_ne _ _ _ _ _ (by omega), getD_set_ne _ _ _ _ _ (by omega),
      getD_set_ne _ _ _ _ _ (by omega)]
    exact hne ((L + 3) % 4) (by omega)
  obtain ⟨c3, hc3, hh4, hl4, htc4, hcp4⟩ := trickStep_fields te ch hmem A3 3 hne3
  set A4 := Core.trickStep te ch A3 3 with hA4
  rw [hcp3', hh3, getD_set_ne _ _ _ _ _ (by omega), getD_set_ne _ _ _ _ _ (by omega),
    getD_set_ne _ _ _ _ _ (by omega)] at hc3
  rw [hcp3', hh3, getD_set_ne _ _ _ _ _ (by omega), getD_set_ne _ _ _ _ _ (by omega),
    getD_set_ne _ _ _ _ _ (by omega)] at hh4
  rw [hl3] at hl4
  dsimp only at hl4
  rw [htc3, hcp3'] at htc4
  -- assemble
  refine ⟨c0, c1, c2, c3, hl4, by rw [htc4]; rfl, ?_, ?_, ?_⟩
  · rw [hh4]
    simp [List.length_set, h4]
  · -- every hand lost exactly one card
    intro j hj
    rw [hh4]
    have hlen4 : ∀ (l : List (List Card)), l.length = 4 →
        ∀ (k : Nat) (x : List Card), (l.set k x).length = 4 := by
      intro l hl k x
      rw [List.length_set]
      exact hl
    by_cases h3 : j = (L + 3) % 4
    · subst h3
      rw [getD_set_self _ _ _ _ (by simp only [List.length_set, h4]; omega)]
      rw [← (hndj _ (by omega)).erase_eq_filter c3,
        List.length_erase_of_mem hc3]
      have := List.length_pos.mpr (hne _ (show (L + 3) % 4 < 4 by omega))
      omega
    · rw [getD_set_ne _ _ _ _ _ (fun he => h3 he.symm)]
      by_cases h2 : j = (L + 2) % 4
      · subst h2
        rw [getD_set_self _ _ _ _ (by simp only [List.length_set, h4]; omega)]
        rw [← (hndj _ (by omega)).erase_eq_filter c2,
          List.length_erase_of_mem hc2]
        have := List.length_pos.mpr (hne _ (show (L + 2) % 4 < 4 by omega))
        omega
      · rw [getD_set_ne _ _ _ _ _ (fun he => h2 he.symm)]
        by_cases h1 : j = (L + 1) % 4
        · subst h1
          rw [getD_set_self _ _ _ _ (by simp only [List.length_set, h4]; omega)]
          rw [← (hndj _ (by omega)).erase_eq_filter c1,
            List.length_erase_of_mem hc1]
          have := List.length_pos.mpr (hne _ (show (L + 1) % 4 < 4 by omega))
          omega
        · rw [getD_set_ne _ _ _ _ _ (fun he => h1 he.symm)]
          by_cases h0 : j = L
          · subst h0
            rw [getD_set_self _ _ _ _ (by omega)]
            rw [← (hndj _ hj).erase_eq_filter c0,
              List.length_erase_of_mem hc0]
            have := List.length_pos.mpr (hne _ hj)
            omega
          · exfalso
            omega
  · -- multiset conservation
    have P0 : (c0 :: (H.set L ((H.getD L []).filter (fun c => c != c0))).flatten).Perm
        H.flatten :=
      cons_flatten_set_perm H L (by omega) c0 hc0 (hndj L hL)
    have P1 : (c1 :: ((H.set L ((H.getD L []).filter (fun c => c != c0))).set
          ((L + 1) % 4) ((H.getD ((L + 1) % 4) []).filter (fun c => c != c1))).flatten).Perm
        (H.set L ((H.getD L []).filter (fun c => c != c0))).flatten := by
      have hp := cons_flatten_set_perm
        (H.set L ((H.getD L []).filter (fun c => c != c0))) ((L + 1) % 4)
        (by rw [List.length_set]; omega) c1
        (by rw [getD_set_ne _ _ _ _ _ (by omega)]; exact hc1)
        (by rw [getD_set_ne _ _ _ _ _ (by omega)]; exact hndj _ (by omega))
      rwa [getD_set_ne _ _ _ _ _ (by omega)] at hp
    have P2 : (c2 :: (((H.set L ((H.getD L []).filter (fun c => c != c0))).set
          ((L + 1) % 4) ((H.getD ((L + 1) % 4) []).filter (fun c => c != c1))).set
          ((L + 2) % 4) ((H.getD ((L + 2) % 4) []).filter (fun c => c != c2))).flatten).Perm
        ((H.set L ((H.getD L []).filter (fun c => c != c0))).set
          ((L + 1) % 4) ((H.getD ((L + 1) % 4) []).filter (fun c => c != c1))).flatten := by
      have hp := cons_flatten_set_perm
        ((H.set L ((H.getD L []).filter (fun c => c != c0))).set
          ((L + 1) % 4) ((H.getD ((L + 1) % 4) []).filter (fun c => c != c1)))
        ((L + 2) % 4)
        (by rw [List.length_set, List.length_set]; omega) c2
        (by rw [getD_set_ne _ _ _ _ _ (by omega), getD_set_ne _ _ _ _ _ (by omega)]
            exact hc2)
        (by rw [getD_set_ne _ _ _ _ _ (by omega), getD_set_ne _ _ _ _ _ (by omega)]
            exact hndj _ (by omega))
      rwa [getD_set_ne _ _ _ _ _ (by omega), getD_set_ne _ _ _ _ _ (by omega)] at hp
    have P3 : (c3 :: ((((H.set L ((H.getD L []).filter (fun c => c != c0))).set
          ((L + 1) % 4) ((H.getD ((L + 1) % 4) []).filter (fun c => c != c1))).set
          ((L + 2) % 4) ((H.getD ((L + 2) % 4) []).filter (fun c => c != c2))).set
          ((L + 3) % 4) ((H.getD ((L + 3) % 4) []).filter (fun c => c != c3))).flatten).Perm
        (((H.set L ((H.getD L []).filter (fun c => c != c0))).set
          ((L + 1) % 4) ((H.getD ((L + 1) % 4) []).filter (fun c => c != c1))).set
          ((L + 2) % 4) ((H.getD ((L + 2) % 4) []).filter (fun c => c != c2))).flatten := by
      have hp := cons_flatten_set_perm
        (((H.set L ((H.getD L []).filter (fun c => c != c0))).set
          ((L + 1) % 4) ((H.getD ((L + 1) % 4) []).filter (fun c => c != c1))).set
          ((L + 2) % 4) ((H.getD ((L + 2) % 4) []).filter (fun c => c != c2)))
        ((L + 3) % 4)
        (by rw [List.length_set, List.length_set, List.length_set]; omega) c3
        (by rw [getD_set_ne _ _ _ _ _ (by omega), getD_set_ne _ _ _ _ _ (by omega),
              getD_set_ne _ _ _ _ _ (by omega)]
            exact hc3)
        (by rw [getD_set_ne _ _ _ _ _ (by omega), getD_set_ne _ _ _ _ _ (by omega),
              getD_set_ne _ _ _ _ _ (by omega)]
            exact hndj _ (by omega))
      rwa [getD_set_ne _ _ _ _ _ (by omega), getD_set_ne _ _ _ _ _ (by omega),
        getD_set_ne _ _ _ _ _ (by omega)] at hp
    rw [hh4]
    apply Multiset.coe_eq_coe.mp
    have e0 := Multiset.coe_eq_coe.mpr P0
    have e1 := Multiset.coe_eq_coe.mpr P1
    have e2 := Multiset.coe_eq_coe.mpr P2
    have e3 := Multiset.coe_eq_coe.mpr P3
    rw [← Multiset.cons_coe] at e0 e1 e2 e3
    show (↑((((H.set L ((H.getD L []).filter (fun c => c != c0))).set
          ((L + 1) % 4) ((H.getD ((L + 1) % 4) []).filter (fun c => c != c1))).set
          ((L + 2) % 4) ((H.getD ((L + 2) % 4) []).filter (fun c => c != c2))).set
          ((L + 3) % 4) ((H.getD ((L + 3) % 4) []).filter (fun c => c != c3))).flatten
        : Multiset Card)
        + (c0 ::ₘ c1 ::ₘ c2 ::ₘ c3 ::ₘ 0) = ↑H.flatten
    rw [← e0, ← e1, ← e2, ← e3]
    simp only [← Multiset.singleton_add]
    abel

/-- One completed trick of the Core engine: totality and all the facts
the game-level invariant needs. -/
theorem play_trick_spec (choose : Core.GameSt → Core.TrickAcc → List Card → Card)
    (g : Core.GameSt)
    (hmem : ∀ a vm, vm ≠ [] → choose g a vm ∈ vm)
    (h4 : g.hands.length = 4)
    (hL : g.currentLeader < 4)
    (hne : ∀ j, j < 4 → g.hands.getD j [] ≠ [])
    (hnd : g.hands.flatten.Nodup) :
    ∃ g' tr, Core.play_trick choose g = some (g', tr) ∧
      g'.tricks = g.tricks ∧
      g'.hands.length = 4 ∧
      g'.currentLeader < 4 ∧
      tr.winner < 4 ∧
      tr.cards.length = 4 ∧
      tr.points = (tr.cards.map (fun p => p.1.score)).sum ∧
      (∀ j, j < 4 → (g'.hands.getD j []).length + 1 = (g.hands.getD j []).length) ∧
      ((g'.hands.flatten ++ tr.cards.map (fun p => p.1)).Perm g.hands.flatten) := by
  obtain ⟨c0, c1, c2, c3, hlead, htc, hlen, hshrink, hperm⟩ :=
    four_steps g.tricks.isEmpty (choose g) hmem g.hands g.heartsBroken
      g.currentLeader h4 hL hne hnd
  set A := [0, 1, 2, 3].foldl (Core.trickStep g.tricks.isEmpty (choose g))
      ⟨g.hands, g.heartsBroken, none, [], g.currentLeader⟩ with hA
  obtain ⟨cw, w, hdet, hwmem, hwsuit, hwmax⟩ :=
    determine_trick_winner_spec A.trickCards c0.suit (c0, g.currentLeader)
      (by rw [htc]; rfl) rfl
  have hw4 : w < 4 := by
    rw [htc] at hwmem
    simp only [List.mem_cons, List.not_mem_nil, or_false, Prod.mk.injEq] at hwmem
    rcases hwmem with ⟨-, rfl⟩ | ⟨-, rfl⟩ | ⟨-, rfl⟩ | ⟨-, rfl⟩ <;> omega
  refine ⟨⟨A.hands, A.heartsBroken, w, g.tricks⟩,
    ⟨A.trickCards, w, (A.trickCards.map (fun p => p.1.score)).sum⟩,
    ?_, rfl, hlen, hw4, hw4, ?_, rfl, hshrink, ?_⟩
  · show (match A.leadSuit with
        | none => none
        | some lead =>
          match Core.determine_trick_winner A.trickCards lead with
          | none => none
          | some winner =>
            some ({ hands := A.hands, heartsBroken := A.heartsBroken,
                    currentLeader := winner, tricks := g.tricks },
                  (⟨A.trickCards, winner,
                    (A.trickCards.map (fun tc =>
                      if tc.1.suit == 'H' then 1
                      else if tc.1.suit == 'S' && tc.1.rank == 12 then 13
                      else 0)).sum⟩ : Core.TrickRec))
        : Option (Core.GameSt × Core.TrickRec))
      = some (⟨A.hands, A.heartsBroken, w, g.tricks⟩,
          ⟨A.trickCards, w, (A.trickCards.map (fun p => p.1.score)).sum⟩)
    rw [hlead]
    dsimp only
    rw [hdet]
    rfl
  · rw [htc]
    rfl
  · rw [htc]
    exact hperm

/-- How many of the first `m` round-robin positions starting at offset
`i` land on seat `j`. -/
def countRR : Nat → Nat → Nat → Nat
  | 0, _, _ => 0
  | m + 1, i, j => (if i % 4 = j then 1 else 0) + countRR m (i + 1) j

theorem dealLoop_length (cs : List Card) : ∀ (i : Nat) (hands : List (List Card)),
    (Core.dealLoop cs i hands).length = hands.length := by
  induction cs with
  | nil => intro i hands; rfl
  | cons c cs ih =>
    intro i hands
    rw [Core.dealLoop, ih, List.length_set]

theorem flatten_set_append (hands : List (List Card)) (k : Nat)
    (hk : k < hands.length) (c : Card) :
    ((hands.set k ((hands.getD k []) ++ [c])).flatten).Perm (hands.flatten ++ [c]) := by
  rw [List.getD_eq_getElem hands [] hk]
  have hset : hands.set k (hands[k] ++ [c])
      = hands.take k ++ (hands[k] ++ [c]) :: hands.drop (k + 1) := by
    rw [List.set_eq_take_append_cons_drop, if_pos hk]
  have hdecomp : hands = hands.take k ++ hands[k] :: hands.drop (k + 1) := by
    conv_lhs => rw [← List.take_append_drop k hands]
    rw [List.drop_eq_getElem_cons hk]
  rw [hset]
  conv_rhs => rw [hdecomp]
  rw [List.flatten_append, List.flatten_cons, List.flatten_append, List.flatten_cons]
  apply Multiset.coe_eq_coe.mp
  show (↑((hands.take k).flatten) : Multiset Card)
      + (((↑(hands[k]) : Multiset Card) + ({c} : Multiset Card))
          + (↑((hands.drop (k + 1)).flatten) : Multiset Card))
    = ((↑((hands.take k).flatten) : Multiset Card)
        + ((↑(hands[k]) : Multiset Card)
            + (↑((hands.drop (k + 1)).flatten) : Multiset Card))) + ({c} : Multiset Card)
  abel

theorem dealLoop_flatten (cs : List Card) : ∀ (i : Nat) (hands : List (List Card)),
    hands.length = 4 → ((Core.dealLoop cs i hands).flatten).Perm (hands.flatten ++ cs) := by
  induction cs with
  | nil => intro i hands _; simp [Core.dealLoop]
  | cons c cs ih =>
    intro i hands h4
    rw [Core.dealLoop]
    have hstep := flatten_set_append hands (i % 4) (by omega) c
    have hih := ih (i + 1) (hands.set (i % 4) ((hands.getD (i % 4) []) ++ [c]))
      (by rw [List.length_set]; exact h4)
    refine hih.trans ?_
    refine (hstep.append_right cs).trans ?_
    rw [List.append_assoc]
    simp

theorem dealLoop_getD_length (cs : List Card) : ∀ (i : Nat) (hands : List (List Card)),
    hands.length = 4 → ∀ j, j < 4 →
    ((Core.dealLoop cs i hands).getD j []).length
      = (hands.getD j []).length + countRR cs.length i j := by
  induction cs with
  | nil => intro i hands _ j _; simp [Core.dealLoop, countRR]
  | cons c cs ih =>
    intro i hands h4 j hj
    rw [Core.dealLoop]
    rw [ih (i + 1) _ (by rw [List.length_set]; exact h4) j hj]
    rw [List.length_cons, countRR]
    by_cases hij : i % 4 = j
    · rw [hij, getD_set_self _ _ _ _ (by omega)]
      simp [List.length_append]
      omega
    · rw [getD_set_ne _ _ _ _ _ hij, if_neg hij]
      simp

theorem countRR_52 : ∀ j, j < 4 → countRR 52 0 j = 13 := by decide

theorem getD_map_lt (l : List α) (f : α → β) (j : Nat) (d : β) (d' : α)
    (hj : j < l.length) :
    (l.map f).getD j d = f (l.getD j d') := by
  rw [List.getD_eq_getElem (l.map f) d (by simpa using hj),
    List.getD_eq_getElem l d' hj, List.getElem_map]

theorem flatten_map_sort_perm (hs : List (List Card)) :
    ((hs.map (fun h => List.insertionSort Core.cardLE h)).flatten).Perm hs.flatten := by
  induction hs with
  | nil => simp
  | cons h t ih =>
    simp only [List.map_cons, List.flatten_cons]
    exact (List.perm_insertionSort Core.cardLE h).append ih

/-- `Deck::deal` on a 52-card deck: four hands of thirteen whose union is
the deck. -/
theorem deal_spec (cards : List Card) (hlen : cards.length = 52) :
    (Core.deal cards).length = 4 ∧
    (∀ j, j < 4 → ((Core.deal cards).getD j []).length = 13) ∧
    ((Core.deal cards).flatten).Perm cards := by
  have hbase : (Core.dealLoop cards 0 [[], [], [], []]).length = 4 :=
    dealLoop_length cards 0 [[], [], [], []]
  refine ⟨?_, ?_, ?_⟩
  · unfold Core.deal
    rw [List.length_map]
    exact hbase
  · intro j hj
    unfold Core.deal
    rw [getD_map_lt _ _ j [] [] (by omega)]
    rw [List.length_insertionSort]
    rw [dealLoop_getD_length cards 0 [[], [], [], []] rfl j hj]
    rw [hlen, countRR_52 j hj]
    have : (([[], [], [], []] : List (List Card)).getD j []).length = 0 := by
      match j, hj with
      | 0, _ => rfl
      | 1, _ => rfl
      | 2, _ => rfl
      | 3, _ => rfl
    omega
  · unfold Core.deal
    refine (flatten_map_sort_perm _).trans ?_
    have := dealLoop_flatten cards 0 [[], [], [], []] rfl
    simpa using this

theorem find_starting_player_lt (hands : List (List Card)) (h4 : hands.length = 4) :
    Core.find_starting_player hands < 4 := by
  unfold Core.find_starting_player
  cases hfi : hands.findIdx? (fun h => h.any (fun c => c.suit == 'C' && c.rank == 2)) with
  | none => simp
  | some i =>
    rw [List.findIdx?_eq_some_iff_findIdx_eq] at hfi
    simp only [Option.getD_some]
    omega

/-- After dealing a permutation of the full deck, the engine invariant
holds with zero completed tricks (empty local accumulator). -/
theorem inv_init (shuffled : List Card) (hperm : shuffled.Perm fullDeck) :
    Core.Inv shuffled (Core.initGame shuffled) [] 0 := by
  have h52 : shuffled.length = 52 := by
    rw [hperm.length_eq]
    rfl
  obtain ⟨hdl, hdh, hdp⟩ := deal_spec shuffled h52
  refine ⟨hdl, find_starting_player_lt _ hdl, rfl, ?_, ?_,
    by intro tr htr; simp at htr⟩
  · intro j hj
    simpa using hdh j hj
  · show ((Core.deal shuffled).flatten ++ Core.playedCards []).Perm shuffled
    simp only [Core.playedCards, List.map_nil, List.flatten_nil, List.append_nil]
    exact hdp

/-- One trick preserves the engine invariant: the completed trick joins
the local accumulator, never the state's `tricks` field. -/
theorem inv_play_trick (deck0 : List Card) (hdk : deck0.Perm fullDeck)
    (choose : Core.GameSt → Core.TrickAcc → List Card → Card) (g : Core.GameSt)
    (played : List Core.TrickRec) (t : Nat)
    (hmem : ∀ a vm, vm ≠ [] → choose g a vm ∈ vm)
    (hinv : Core.Inv deck0 g played t) (ht : t < 13) :
    ∃ g' tr, Core.play_trick choose g = some (g', tr) ∧
      Core.Inv deck0 g' (played ++ [tr]) (t + 1) := by
  obtain ⟨h4, hL, htlen, hhl, hperm, htr⟩ := hinv
  have hne : ∀ j, j < 4 → g.hands.getD j [] ≠ [] := by
    intro j hj hnil
    have hl := hhl j hj
    rw [hnil] at hl
    simp at hl
    omega
  have hndfull : fullDeck.Nodup := by decide
  have hnd0 : deck0.Nodup := hdk.nodup_iff.mpr hndfull
  have hnd : g.hands.flatten.Nodup :=
    (hperm.nodup_iff.mpr hnd0).of_append_left
  obtain ⟨g', tr, hpt, htrk, h4', hL', hw4, hc4, hpts, hshrink, hperm'⟩ :=
    play_trick_spec choose g hmem h4 hL hne hnd
  refine ⟨g', tr, hpt, h4', hL', ?_, ?_, ?_, ?_⟩
  · simp [htlen]
  · intro j hj
    have h1 := hshrink j hj
    have h2 := hhl j hj
    omega
  · show (g'.hands.flatten ++ Core.playedCards (played ++ [tr])).Perm deck0
    have hplayed : Core.playedCards (played ++ [tr])
        = Core.playedCards played ++ tr.cards.map (fun p => p.1) := by
      simp [Core.playedCards]
    rw [hplayed]
    apply Multiset.coe_eq_coe.mp
    have e1 := Multiset.coe_eq_coe.mpr hperm'
    have e2 := Multiset.coe_eq_coe.mpr hperm
    show (↑(g'.hands.flatten) : Multiset Card)
        + ((↑(Core.playedCards played) : Multiset Card)
            + (↑(tr.cards.map (fun p => p.1)) : Multiset Card))
      = (↑deck0 : Multiset Card)
    rw [← e2]
    show (↑(g'.hands.flatten) : Multiset Card)
        + ((↑(Core.playedCards played) : Multiset Card)
            + (↑(tr.cards.map (fun p => p.1)) : Multiset Card))
      = (↑(g.hands.flatten) : Multiset Card)
          + (↑(Core.playedCards played) : Multiset Card)
    rw [← e1]
    show (↑(g'.hands.flatten) : Multiset Card)
        + ((↑(Core.playedCards played) : Multiset Card)
            + (↑(tr.cards.map (fun p => p.1)) : Multiset Card))
      = ((↑(g'.hands.flatten) : Multiset Card)
            + (↑(tr.cards.map (fun p => p.1)) : Multiset Card))
          + (↑(Core.playedCards played) : Multiset Card)
    abel
  · intro tr' htr'
    rcases List.mem_append.mp htr' with h1 | h1
    · exact htr tr' h1
    · rcases List.mem_singleton.mp h1 with rfl
      exact ⟨hw4, hc4, hpts⟩

/-- The invariant is preserved across any prefix of the thirteen
tricks, the completed tricks accumulating in the loop-local list. -/
theorem inv_play_tricks (deck0 : List Card) (hdk : deck0.Perm fullDeck)
    (choose : Core.GameSt → Core.TrickAcc → List Card → Card)
    (hmem : ∀ g a vm, vm ≠ [] → choose g a vm ∈ vm) :
    ∀ (n s : Nat) (g : Core.GameSt) (acc : List Core.TrickRec),
      Core.Inv deck0 g acc s → s + n ≤ 13 →
      ∃ g' acc', Core.play_tricks choose n g acc = some (g', acc') ∧
        Core.Inv deck0 g' acc' (s + n) := by
  intro n
  induction n with
  | zero =>
    intro s g acc hinv _
    exact ⟨g, acc, rfl, by simpa using hinv⟩
  | succ n ih =>
    intro s g acc hinv hle
    obtain ⟨g1, tr, hpt, hinv1⟩ :=
      inv_play_trick deck0 hdk choose g acc s (hmem g) hinv (by omega)
    obtain ⟨g', acc', hrest, hinv'⟩ := ih (s + 1) g1 (acc ++ [tr]) hinv1 (by omega)
    refine ⟨g', acc', ?_, by rw [show s + (n + 1) = s + 1 + n by omega]; exact hinv'⟩
    rw [Core.play_tricks, hpt]
    exact hrest

theorem getD_eq_get?_getD (l : List Nat) (n d : Nat) : l.getD n d = (l.get? n).getD d := by
  rw [List.getD_eq_getElem?_getD, List.get?_eq_getElem?]

/-- `min_by_key` over the enumerated scores: a total choice of the FIRST
seat attaining the minimal score. -/
theorem winnerIdx_spec (scores : List Nat) (hne : scores ≠ []) :
    ∃ w, Core.winnerIdx scores = some w ∧ w < scores.length ∧
      (∀ j, j < scores.length → scores.getD w 0 ≤ scores.getD j 0) ∧
      (∀ j, j < w → scores.getD w 0 < scores.getD j 0) := by
  cases hsc : scores.enum with
  | nil =>
    exfalso
    have hlen := congrArg List.length hsc
    simp only [List.enum_length, List.length_nil] at hlen
    exact hne (List.length_eq_zero.mp hlen)
  | cons e0 etail =>
    have hwdef : Core.winnerIdx scores
        = some (minFold (fun p : Nat × Nat => p.2) e0 etail).1 := by
      unfold Core.winnerIdx
      rw [hsc]
      rfl
    set r := minFold (fun p : Nat × Nat => p.2) e0 etail with hr
    have hrmem : r ∈ scores.enum := by
      rw [hsc]
      exact minFold_mem _ etail e0
    have hrget : scores.get? r.1 = some r.2 := List.mem_enum_iff_get?.mp hrmem
    have hrlt : r.1 < scores.length := by
      by_contra hlt
      rw [List.get?_eq_none.mpr (by omega)] at hrget
      simp at hrget
    have hgetDr : scores.getD r.1 0 = r.2 := by
      rw [getD_eq_get?_getD, hrget]
      rfl
    obtain ⟨l₁, l₂, hsplit, hstrict⟩ := minFold_split (fun p : Nat × Nat => p.2) etail e0
    have henum : scores.enum = l₁ ++ r :: l₂ := by rw [hsc]; exact hsplit
    have hr1 : r.1 = l₁.length := by
      have h1 : scores.enum.get? l₁.length = some r := by
        rw [henum, List.get?_append_right (le_refl _)]
        simp
      rw [List.get?_enum] at h1
      cases hg : scores.get? l₁.length with
      | none => rw [hg] at h1; simp at h1
      | some v =>
        rw [hg] at h1
        simp only [Option.map_some', Option.some.injEq] at h1
        rw [← h1]
    refine ⟨r.1, hwdef, hrlt, ?_, ?_⟩
    · intro j hj
      have hjm : (j, scores.getD j 0) ∈ scores.enum := by
        rw [List.mem_enum_iff_get?]
        show scores.get? j = some (scores.getD j 0)
        rw [getD_eq_get?_getD]
        cases hg : scores.get? j with
        | none => rw [List.get?_eq_none] at hg; omega
        | some v => rfl
      rw [hsc] at hjm
      have := minFold_le (fun p : Nat × Nat => p.2) etail e0 _ hjm
      rw [← hr] at this
      rw [hgetDr]
      exact this
    · intro j hj
      have hjget : scores.enum.get? j = l₁.get? j := by
        rw [henum]
        exact List.get?_append (by omega)
      cases hg : l₁.get? j with
      | none =>
        rw [List.get?_eq_none] at hg
        omega
      | some x =>
        have hxmem : x ∈ l₁ := List.get?_mem hg
        have hstr := hstrict x hxmem
        rw [← hr] at hstr
        rw [hg] at hjget
        rw [List.get?_enum] at hjget
        cases hgs : scores.get? j with
        | none => rw [hgs] at hjget; simp at hjget
        | some v =>
          rw [hgs] at hjget
          simp only [Option.map_some', Option.some.injEq] at hjget
          have hx2 : x.2 = v := by rw [← hjget]
          rw [hgetDr, getD_eq_get?_getD, hgs]
          show r.2 < v
          rw [← hx2]
          exact hstr

theorem sum_set_getD_add (s : List Nat) : ∀ (i : Nat), i < s.length → ∀ (p : Nat),
    (s.set i (s.getD i 0 + p)).sum = s.sum + p := by
  induction s with
  | nil => intro i hi; simp at hi
  | cons x xs ih =>
    intro i hi p
    cases i with
    | zero =>
      simp only [List.getD_cons_zero, List.set_cons_zero, List.sum_cons]
      omega
    | succ i =>
      simp only [List.getD_cons_succ, List.set_cons_succ, List.sum_cons]
      rw [ih i (by simpa using hi) p]
      omega

theorem scoresOf_aux (tricks : List Core.TrickRec) :
    ∀ (s : List Nat), s.length = 4 → (∀ tr ∈ tricks, tr.winner < 4) →
      (tricks.foldl (fun s t => s.set t.winner (s.getD t.winner 0 + t.points)) s).length = 4 ∧
      (tricks.foldl (fun s t => s.set t.winner (s.getD t.winner 0 + t.points)) s).sum
        = s.sum + (tricks.map (fun tr => tr.points)).sum := by
  induction tricks with
  | nil => intro s hs _; simp [hs]
  | cons tr rest ih =>
    intro s hs hw
    simp only [List.foldl_cons, List.map_cons, List.sum_cons]
    have hlen : (s.set tr.winner (s.getD tr.winner 0 + tr.points)).length = 4 := by
      rw [List.length_set]; exact hs
    obtain ⟨ihl, ihs⟩ := ih _ hlen (fun tr' h => hw tr' (List.mem_cons_of_mem _ h))
    refine ⟨ihl, ?_⟩
    rw [ihs, sum_set_getD_add s tr.winner (by rw [hs]; exact hw tr (List.mem_cons_self _ _)) tr.points]
    omega

theorem scoresOf_spec (tricks : List Core.TrickRec)
    (hw : ∀ tr ∈ tricks, tr.winner < 4) :
    (Core.scoresOf tricks).length = 4 ∧
    (Core.scoresOf tricks).sum = (tricks.map (fun tr => tr.points)).sum := by
  obtain ⟨h1, h2⟩ := scoresOf_aux tricks [0, 0, 0, 0] rfl hw
  exact ⟨h1, h2.trans (by simp)⟩

/-- The total of the per-trick point values is the total `score()` of all
played cards. -/
theorem points_sum (tricks : List Core.TrickRec)
    (hpts : ∀ tr ∈ tricks, tr.points = (tr.cards.map (fun p => p.1.score)).sum) :
    (tricks.map (fun tr => tr.points)).sum
      = ((Core.playedCards tricks).map Card.score).sum := by
  induction tricks with
  | nil => rfl
  | cons tr rest ih =>
    simp only [List.map_cons, List.sum_cons]
    have hplayed : Core.playedCards (tr :: rest)
        = tr.cards.map (fun p => p.1) ++ Core.playedCards rest := by
      simp [Core.playedCards]
    rw [hplayed, List.map_append, List.sum_append]
    rw [hpts tr (List.mem_cons_self _ _), ih (fun t h => hpts t (List.mem_cons_of_mem _ h))]
    rw [List.map_map]
    rfl

/-- Full-game analysis of `play_game`: the game completes, the four
final scores sum to 26 and the reported winner is the first seat with
the minimal score.  `choose` abstracts the strategies; the hypothesis
says each chooses from the supplied legal moves. -/
theorem play_game_spec (shuffled : List Card)
    (choose : Core.GameSt → Core.TrickAcc → List Card → Card)
    (hperm : shuffled.Perm fullDeck)
    (hmem : ∀ g a vm, vm ≠ [] → choose g a vm ∈ vm) :
    ∃ res, Core.play_game choose (Core.initGame shuffled) = some res ∧
      res.scores.length = 4 ∧
      res.scores.sum = 26 ∧
      res.winner < 4 ∧
      (∀ j, j < 4 → res.scores.getD res.winner 0 ≤ res.scores.getD j 0) ∧
      (∀ j, j < res.winner → res.scores.getD res.winner 0 < res.scores.getD j 0) := by
  obtain ⟨g, acc, hpt, hinv⟩ := inv_play_tricks shuffled hperm choose hmem 13 0
    (Core.initGame shuffled) [] (inv_init shuffled hperm) (by omega)
  simp only [Nat.zero_add] at hinv
  obtain ⟨h4, hL, htl, hhl, hp, htr⟩ := hinv
  have hflat : g.hands.flatten = [] := by
    rw [List.flatten_eq_nil_iff]
    intro l hl
    obtain ⟨j, hj, hje⟩ := List.mem_iff_getElem.mp hl
    have hlen := hhl j (by omega)
    rw [List.getD_eq_getElem _ _ (by omega)] at hlen
    rw [hje] at hlen
    exact List.length_eq_zero.mp (by omega)
  have hplayedperm : (Core.playedCards acc).Perm fullDeck := by
    have hpp := hp.trans hperm
    rw [hflat] at hpp
    simpa using hpp
  obtain ⟨hslen, hssum⟩ := scoresOf_spec acc (fun tr h => (htr tr h).1)
  have hsum26 : (Core.scoresOf acc).sum = 26 := by
    rw [hssum, points_sum acc (fun tr h => (htr tr h).2.2)]
    rw [(hplayedperm.map Card.score).sum_eq]
    rfl
  obtain ⟨w, hwidx, hwlt, hwmin, hwfirst⟩ := winnerIdx_spec (Core.scoresOf acc)
    (by intro h; rw [h] at hslen; simp at hslen)
  have hpg : Core.play_game choose (Core.initGame shuffled)
      = some ⟨Core.scoresOf acc, acc, w⟩ := by
    unfold Core.play_game
    rw [hpt]
    dsimp only
    rw [hwidx]
  rw [hslen] at hwlt hwmin
  exact ⟨_, hpg, hslen, hsum26, hwlt, hwmin, hwfirst⟩

/-- C3: in every game driven by `play_game` — four 13-card hands dealt
from the full 52-card deck (any shuffle), every strategy choosing a card
from the supplied legal-move list — the game completes and the four final
scores sum to exactly 26: exactly the thirteen Hearts at 1 point each
plus the Queen of Spades at 13 flow into the winners' scores, trick by
trick. -/
theorem C3_scores_sum_26 (shuffled : List Card)
    (choose : Core.GameSt → Core.TrickAcc → List Card → Card)
    (hperm : shuffled.Perm fullDeck)
    (hmem : ∀ g a vm, vm ≠ [] → choose g a vm ∈ vm) :
    ∃ res, Core.play_game choose (Core.initGame shuffled) = some res ∧
      res.scores.length = 4 ∧
      res.scores.sum = 26 := by
  obtain ⟨res, hpg, hlen, hsum, -, -, -⟩ := play_game_spec shuffled choose hperm hmem
  exact ⟨res, hpg, hlen, hsum⟩

/-- Witness for C3: the unshuffled deck with every seat playing the first
legal move. -/
theorem C3_scores_sum_26_witness :
    fullDeck.Perm fullDeck ∧
    ∃ res, Core.play_game (fun _ _ vm => vm.headD ⟨'C', 2⟩)
        (Core.initGame fullDeck) = some res ∧
      res.scores.length = 4 ∧
      res.scores.sum = 26 :=
  ⟨List.Perm.refl _,
   C3_scores_sum_26 fullDeck (fun _ _ vm => vm.headD ⟨'C', 2⟩) (List.Perm.refl _)
     (by
       intro g a vm h
       cases vm with
       | nil => exact absurd rfl h
       | cons v r => exact List.mem_cons_self v r)⟩

/-- C4: at every trick boundary — after dealing (t = 0) and after each of
the 13 completed tricks — the four hands hold exactly `13 - t` cards
each, no card appears in two hands, and the hands together with the
already-played cards are a permutation of (partition, with no
duplicates, of) the 52-card deck.  Each play removed exactly the chosen
card: the count conservation per trick is part of the invariant proof. -/
theorem C4_partition_invariant (shuffled : List Card)
    (choose : Core.GameSt → Core.TrickAcc → List Card → Card)
    (hperm : shuffled.Perm fullDeck)
    (hmem : ∀ g a vm, vm ≠ [] → choose g a vm ∈ vm)
    (t : Nat) (ht : t ≤ 13) :
    ∃ g acc, Core.play_tricks choose t (Core.initGame shuffled) [] = some (g, acc) ∧
      g.hands.length = 4 ∧
      (∀ j, j < 4 → (g.hands.getD j []).length = 13 - t) ∧
      ((g.hands.flatten ++ Core.playedCards acc).Perm fullDeck) ∧
      g.hands.flatten.Nodup ∧
      List.Pairwise List.Disjoint g.hands := by
  obtain ⟨g, acc, hpt, hinv⟩ := inv_play_tricks shuffled hperm choose hmem t 0
    (Core.initGame shuffled) [] (inv_init shuffled hperm) (by omega)
  simp only [Nat.zero_add] at hinv
  obtain ⟨h4, hL, htl, hhl, hp, htr⟩ := hinv
  have hp' : (g.hands.flatten ++ Core.playedCards acc).Perm fullDeck :=
    hp.trans hperm
  have hnodup : (g.hands.flatten ++ Core.playedCards acc).Nodup :=
    hp'.nodup_iff.mpr (by decide)
  have hfl : g.hands.flatten.Nodup := hnodup.of_append_left
  exact ⟨g, acc, hpt, h4, hhl, hp', hfl, (List.nodup_flatten.mp hfl).2⟩

/-- Witness for C4: the unshuffled deck, first-legal-move strategies,
after seven completed tricks. -/
theorem C4_partition_invariant_witness :
    fullDeck.Perm fullDeck ∧ 7 ≤ 13 ∧
    ∃ g acc, Core.play_tricks (fun _ _ vm => vm.headD ⟨'C', 2⟩) 7
        (Core.initGame fullDeck) [] = some (g, acc) ∧
      g.hands.length = 4 ∧
      (∀ j, j < 4 → (g.hands.getD j []).length = 13 - 7) ∧
      ((g.hands.flatten ++ Core.playedCards acc).Perm fullDeck) ∧
      g.hands.flatten.Nodup ∧
      List.Pairwise List.Disjoint g.hands :=
  ⟨List.Perm.refl _, by omega,
   C4_partition_invariant fullDeck (fun _ _ vm => vm.headD ⟨'C', 2⟩)
     (List.Perm.refl _)
     (by
       intro g a vm h
       cases vm with
       | nil => exact absurd rfl h
       | cons v r => exact List.mem_cons_self v r)
     7 (by omega)⟩

namespace Sim

/-- The winner selection of `game-simulation`'s `play_game` (lines
203-208): `min_by_key` on the score over the seat-ordered
`final_scores : Vec<(String, u8)>`, returning the first minimal
player's name. -/
def winnerName (final_scores : List (String × Nat)) : Option String :=
  (minByKeyFirst (fun p : String × Nat => p.2) final_scores).map (fun p => p.1)

end Sim

theorem getD_append_self_length (l₁ l₂ : List α) (x : α) (d : α) :
    (l₁ ++ x :: l₂).getD l₁.length d = x := by
  rw [List.getD_eq_getElem?_getD, List.getElem?_append_right (le_refl _)]
  simp

theorem getD_append_lt (l₁ l₂ : List α) (j : Nat) (d : α) (hj : j < l₁.length) :
    (l₁ ++ l₂).getD j d = l₁.getD j d := by
  rw [List.getD_eq_getElem?_getD, List.getD_eq_getElem?_getD,
    List.getElem?_append_left hj]

/-- The `game-simulation` winner selection picks the name of the first
seat attaining the minimal score. -/
theorem sim_winner_spec (fs : List (String × Nat)) (hne : fs ≠ []) :
    ∃ i, i < fs.length ∧
      Sim.winnerName fs = some (fs.getD i ("", 0)).1 ∧
      (∀ j, j < fs.length → (fs.getD i ("", 0)).2 ≤ (fs.getD j ("", 0)).2) ∧
      (∀ j, j < i → (fs.getD i ("", 0)).2 < (fs.getD j ("", 0)).2) := by
  cases fs with
  | nil => exact absurd rfl hne
  | cons e0 etail =>
    obtain ⟨l₁, l₂, hsplit, hstrict⟩ :=
      minFold_split (fun p : String × Nat => p.2) etail e0
    have hlentot : (e0 :: etail).length = l₁.length + (l₂.length + 1) := by
      rw [hsplit]
      simp [List.length_append]
    have hgd : (e0 :: etail).getD l₁.length ("", 0)
        = minFold (fun p : String × Nat => p.2) e0 etail := by
      rw [hsplit]
      exact getD_append_self_length l₁ l₂ _ ("", 0)
    refine ⟨l₁.length, by omega, ?_, ?_, ?_⟩
    · rw [hgd]
      rfl
    · intro j hj
      rw [hgd]
      exact minFold_le (fun p : String × Nat => p.2) etail e0 _
        (getD_mem_of_lt _ j ("", 0) hj)
    · intro j hj
      rw [hgd]
      have hj1 : (e0 :: etail).getD j ("", 0) = l₁.getD j ("", 0) := by
        rw [hsplit]
        exact getD_append_lt l₁ _ j ("", 0) hj
      rw [hj1]
      exact hstrict _ (getD_mem_of_lt l₁ j ("", 0) hj)

/-- C10: the reported winner is a single seat with minimal final score,
ties resolved to the smallest seat index.  In `game-core`, `play_game`'s
`min_by_key` over the enumerated scores keeps the first minimum, so the
winner's score is minimal and every earlier seat scores strictly more.
In `game-simulation`, the winner is the name of the first seat of the
seat-ordered `final_scores` attaining the minimal score — likewise a
single winner, never a set. -/
theorem C10_winner_first_minimal (shuffled : List Card)
    (choose : Core.GameSt → Core.TrickAcc → List Card → Card)
    (hperm : shuffled.Perm fullDeck)
    (hmem : ∀ g a vm, vm ≠ [] → choose g a vm ∈ vm) :
    (∃ res, Core.play_game choose (Core.initGame shuffled) = some res ∧
      res.winner < 4 ∧
      res.scores.length = 4 ∧
      (∀ j, j < 4 → res.scores.getD res.winner 0 ≤ res.scores.getD j 0) ∧
      (∀ j, j < res.winner → res.scores.getD res.winner 0 < res.scores.getD j 0)) ∧
    (∀ final_scores : List (String × Nat), final_scores ≠ [] →
      ∃ i, i < final_scores.length ∧
        Sim.winnerName final_scores = some (final_scores.getD i ("", 0)).1 ∧
        (∀ j, j < final_scores.length →
          (final_scores.getD i ("", 0)).2 ≤ (final_scores.getD j ("", 0)).2) ∧
        (∀ j, j < i →
          (final_scores.getD i ("", 0)).2 < (final_scores.getD j ("", 0)).2)) := by
  constructor
  · obtain ⟨res, hpg, hlen, -, hwlt, hwmin, hwfirst⟩ :=
      play_game_spec shuffled choose hperm hmem
    exact ⟨res, hpg, hwlt, hlen, hwmin, hwfirst⟩
  · intro fs hne
    exact sim_winner_spec fs hne

/-- Witness for C10: the unshuffled deck with first-legal-move
strategies. -/
theorem C10_winner_first_minimal_witness :
    fullDeck.Perm fullDeck ∧
    (∃ res, Core.play_game (fun _ _ vm => vm.headD ⟨'C', 2⟩)
        (Core.initGame fullDeck) = some res ∧
      res.winner < 4 ∧
      res.scores.length = 4 ∧
      (∀ j, j < 4 → res.scores.getD res.winner 0 ≤ res.scores.getD j 0) ∧
      (∀ j, j < res.winner → res.scores.getD res.winner 0 < res.scores.getD j 0)) ∧
    (∀ final_scores : List (String × Nat), final_scores ≠ [] →
      ∃ i, i < final_scores.length ∧
        Sim.winnerName final_scores = some (final_scores.getD i ("", 0)).1 ∧
        (∀ j, j < final_scores.length →
          (final_scores.getD i ("", 0)).2 ≤ (final_scores.getD j ("", 0)).2) ∧
        (∀ j, j < i →
          (final_scores.getD i ("", 0)).2 < (final_scores.getD j ("", 0)).2)) :=
  ⟨List.Perm.refl _,
   C10_winner_first_minimal fullDeck (fun _ _ vm => vm.headD ⟨'C', 2⟩)
     (List.Perm.refl _)
     (by
       intro g a vm h
       cases vm with
       | nil => exact absurd rfl h
       | cons v r => exact List.mem_cons_self v r)
     |>.1,
   C10_winner_first_minimal fullDeck (fun _ _ vm => vm.headD ⟨'C', 2⟩)
     (List.Perm.refl _)
     (by
       intro g a vm h
       cases vm with
       | nil => exact absurd rfl h
       | cons v r => exact List.mem_cons_self v r)
     |>.2⟩

end Hearts
